import Mathlib

/-!
# aiven-string-replacer-for-grafana: the substitute-and-republish run

A shallow embedding of `main.go`: the configuration check (`checkConfig`), the
audit message (`replacerMessage`), and the fetch / substitute / re-parse / write
cycle (`processDashboard`), followed by the properties of the specification
that are settled against it.

Go strings and byte slices are sequences of bytes.  The Go standard library
(`bytes.ReplaceAll`, `unicode/utf8`) is modelled from its documentation; the
JSON codec (`encoding/json`) and the Grafana client (`gapi`) are external
collaborators and enter `processDashboard` as injected operations.  A run
records the remote calls it makes, so that what is fetched and written, and
how often, can be stated.

The statements on the run hold for every client, and for every codec where the
codec is a parameter.  The round trip of a content model is proved for
`encoding/json` itself, embedded as `jsonCodec` (objects, arrays, strings,
`float64` numbers, booleans and null, with the error messages of the decoder).
The concrete runs use `jsonCodec` and a Grafana service held in memory.
-/

set_option maxRecDepth 100000

namespace Replacer

/-! ## Go strings -/

/-- A Go `string` or `[]byte`: a finite sequence of bytes. -/
abbrev GoString := List UInt8

/-- The bytes of a string literal (Go source text is UTF-8). -/
def str (s : String) : GoString := s.data.flatMap String.utf8EncodeChar

/-! ## `unicode/utf8` and `bytes` (Go standard library) -/

/-- The range accepted for the second byte of a multi-byte sequence that starts
with `p0`, and the length of that sequence (`first` and `acceptRanges` of
`unicode/utf8`); `none` for an ASCII byte or a byte that starts no sequence. -/
def utf8Lead (p0 : UInt8) : Option (Nat × UInt8 × UInt8) :=
  if p0 < 0xC2 then none
  else if p0 < 0xE0 then some (2, 0x80, 0xBF)
  else if p0 = 0xE0 then some (3, 0xA0, 0xBF)
  else if p0 = 0xED then some (3, 0x80, 0x9F)
  else if p0 < 0xF0 then some (3, 0x80, 0xBF)
  else if p0 = 0xF0 then some (4, 0x90, 0xBF)
  else if p0 < 0xF4 then some (4, 0x80, 0xBF)
  else if p0 = 0xF4 then some (4, 0x80, 0x8F)
  else none

/-- Continuation byte test of `unicode/utf8` (`locb .. hicb`). -/
def isCont (b : UInt8) : Bool := 0x80 ≤ b && b ≤ 0xBF

/-- The `size` result of `utf8.DecodeRune`: 0 on the empty slice, the length of
the first UTF-8 sequence when it is well formed, and 1 otherwise. -/
def runeWidth : GoString → Nat
  | [] => 0
  | p0 :: rest =>
    match utf8Lead p0 with
    | none => 1
    | some (sz, lo, hi) =>
      if rest.length + 1 < sz then 1
      else
        match rest with
        | [] => 1
        | b1 :: rest1 =>
          if b1 < lo || hi < b1 then 1
          else if sz ≤ 2 then 2
          else
            match rest1 with
            | [] => 1
            | b2 :: rest2 =>
              if !isCont b2 then 1
              else if sz ≤ 3 then 3
              else
                match rest2 with
                | [] => 1
                | b3 :: _ => if !isCont b3 then 1 else 4

/-- The function `bytes.HasPrefix`. -/
def HasPrefix (s pre : GoString) : Bool := pre.isPrefixOf s

/-- Replacement of a non-empty `old`: scanning left to right, an occurrence of
`old` at the current position is replaced by `new` and the scan resumes after
it (occurrences do not overlap); any other byte is copied.  The first argument
bounds the number of steps. -/
def replaceScan (old new : GoString) : Nat → GoString → GoString
  | 0, s => s
  | fuel + 1, s =>
    if HasPrefix s old then new ++ replaceScan old new fuel (s.drop old.length)
    else
      match s with
      | [] => []
      | c :: rest => c :: replaceScan old new fuel rest

/-- Replacement of the empty `old`: `new` is written after every UTF-8 sequence
of the slice (the caller writes the one at the beginning). -/
def replaceRunes (new : GoString) : Nat → GoString → GoString
  | 0, s => s
  | _ + 1, [] => []
  | fuel + 1, c :: rest =>
    let w := runeWidth (c :: rest)
    (c :: rest).take w ++ new ++ replaceRunes new fuel ((c :: rest).drop w)

/-- The function `bytes.ReplaceAll(s, old, new)`: all non-overlapping instances
of `old` replaced by `new`; an empty `old` matches at the beginning of the slice
and after each UTF-8 sequence. -/
def ReplaceAll (s old new : GoString) : GoString :=
  if old = [] then new ++ replaceRunes new s.length s
  else replaceScan old new s.length s

/-! ## Configuration (`main.go`) -/

/-- The struct `replacement`. -/
structure replacement where
  key : GoString
  val : GoString
deriving DecidableEq, Repr

/-- The struct `replacements`, the value of the `replace` flag. -/
structure replacements where
  rs : List replacement
deriving DecidableEq, Repr

/-- The struct `config`. -/
structure config where
  url : GoString
  apikey : GoString
  uid : GoString
  replace : replacements
  overwrite : Bool
  retries : Int
deriving DecidableEq, Repr

/-- Go's `error`: `none` is `nil`, `some msg` an error with that message. -/
abbrev GoError := Option GoString

/-- The function `checkConfig`. -/
def checkConfig (cfg : config) : GoError :=
  if cfg.url = [] then some (str "'url' is required")
  else if cfg.apikey = [] then some (str "'apikey' is required")
  else if cfg.uid = [] then some (str "'uid' is required")
  else if cfg.replace.rs.length = 0 then some (str "'replace' is required")
  else none

/-- The loop of `replacerMessage`: `i` is the index of the next rule and `b`
the builder's content. -/
def replacerMessageLoop : Nat → List replacement → GoString → GoString
  | _, [], b => b
  | i, r :: rest, b =>
    let b1 := if i > 0 then b ++ str ", " else b
    replacerMessageLoop (i + 1) rest (b1 ++ (r.key ++ str "<=>" ++ r.val))

/-- The function `replacerMessage`. -/
def replacerMessage (cfg : config) : GoString :=
  replacerMessageLoop 0 cfg.replace.rs
    (str "String replacement by aiven-grafana-string-replacer" ++ str ": ")

/-- The substitution loop of `processDashboard` (lines 63-66): the rules are
applied in order, each to the text left by the previous one. -/
def substitute : List replacement → GoString → GoString
  | [], dbytes => dbytes
  | r :: rest, dbytes => substitute rest (ReplaceAll dbytes r.key r.val)

/-! ## External collaborators -/

/-- The struct `gapi.Dashboard` as `processDashboard` sees it: the content
model, the two fields it sets, and every other field (`Meta`, folder, ...)
carried along in `other`. -/
structure Dashboard (M X : Type) where
  Model : M
  Overwrite : Bool
  Message : GoString
  other : X

/-- The two functions of `encoding/json` that `processDashboard` calls, on the
content model type `M` (Go's `map[string]interface{}`).  `Unmarshal` is the
decoding into a freshly made map; a failure carries the error's message. -/
structure Codec (M : Type) where
  Marshal : M → Except GoString GoString
  Unmarshal : GoString → Except GoString M

/-- The Grafana client `gapi`: `New` builds a client from url, api key and
retry count; `DashboardByUID` and `NewDashboard` are the remote fetch and
write, acting on the state `σ` of the remote service.  `C` is the client type
and `R` the type of the save response. -/
structure Gapi (σ C M X R : Type) where
  New : GoString → GoString → Int → Except GoString C
  DashboardByUID : C → GoString → σ → Except GoString (Dashboard M X) × σ
  NewDashboard : C → Dashboard M X → σ → Except GoString R × σ

/-- A remote call made during a run, with its arguments and what it
returned. -/
inductive Call (M X R : Type) where
  | DashboardByUID (uid : GoString) (result : Except GoString (Dashboard M X))
  | NewDashboard (dashboard : Dashboard M X) (result : Except GoString R)

/-- Whether the call is a write. -/
def Call.isWrite {M X R : Type} : Call M X R → Bool
  | .DashboardByUID _ _ => false
  | .NewDashboard _ _ => true

/-- What a run of `processDashboard` leaves behind: the returned error, the
state of the remote service, and the remote calls made, in order. -/
structure Run (σ M X R : Type) where
  err : GoError
  world : σ
  calls : List (Call M X R)

/-- The function `fmt.Errorf` with a format `msg: %w`. -/
def wrapError (msg : String) (err : GoString) : GoError := some (str msg ++ err)

/-- The function `processDashboard`. -/
def processDashboard {σ C M X R : Type} (api : Gapi σ C M X R) (json : Codec M)
    (cfg : config) (w : σ) : Run σ M X R :=
  match api.New cfg.url cfg.apikey cfg.retries with
  | .error err => ⟨wrapError "unable to create grafana client: " err, w, []⟩
  | .ok client =>
    match api.DashboardByUID client cfg.uid w with
    | (.error err, w1) =>
      ⟨wrapError "unable to fetch dashboards: " err, w1,
        [.DashboardByUID cfg.uid (.error err)]⟩
    | (.ok dashboard, w1) =>
      match json.Marshal dashboard.Model with
      | .error err =>
        ⟨wrapError "unable to marshal model: " err, w1,
          [.DashboardByUID cfg.uid (.ok dashboard)]⟩
      | .ok dbytes =>
        match json.Unmarshal (substitute cfg.replace.rs dbytes) with
        | .error err =>
          ⟨wrapError "unable to marshal processed model: " err, w1,
            [.DashboardByUID cfg.uid (.ok dashboard)]⟩
        | .ok model =>
          let dashboard1 : Dashboard M X :=
            { dashboard with
              Model := model, Overwrite := cfg.overwrite, Message := replacerMessage cfg }
          match api.NewDashboard client dashboard1 w1 with
          | (.error err, w2) =>
            ⟨wrapError "unable to save dashboard: " err, w2,
              [.DashboardByUID cfg.uid (.ok dashboard), .NewDashboard dashboard1 (.error err)]⟩
          | (.ok resp, w2) =>
            ⟨none, w2,
              [.DashboardByUID cfg.uid (.ok dashboard), .NewDashboard dashboard1 (.ok resp)]⟩

/-! ## The `replace` flag and `main` -/

/-- Modelled from the spec: the constant `replacementSeperator`, which `main`
uses and whose declaration is not in the source; the spec gives the entry
format `key<=>value`. -/
def replacementSeperator : GoString := str "<=>"

/-- The split of `s` at the first occurrence of `sep`: the text before it and
the text after it, or `none` when `sep` does not occur. -/
def Cut (sep : GoString) : GoString → Option (GoString × GoString)
  | [] => if sep = [] then some ([], []) else none
  | c :: rest =>
    if HasPrefix (c :: rest) sep then some ([], (c :: rest).drop sep.length)
    else (Cut sep rest).map fun kv => (c :: kv.1, kv.2)

/-- Modelled from the spec: the method `Set` of the flag value `replacements`
(registered in `main` with `flag.Var`), which is not in the source.  The spec:
the entry is split on the first occurrence of the separator only, an entry
without the separator fails, and entries accumulate in the order supplied.
The spec names the failure (`MalformedReplacementError`) and not its text. -/
def replacements.Set (r : replacements) (value : GoString) : Except GoString replacements :=
  match Cut replacementSeperator value with
  | none => .error (str "malformed replacement: " ++ value)
  | some (key, val) => .ok ⟨r.rs ++ [⟨key, val⟩]⟩

/-- One flag of the command line, as `flag.Parse` hands it to the variable
registered for it in `main`. -/
inductive Flag where
  | url (v : GoString)
  | apikey (v : GoString)
  | uid (v : GoString)
  | replace (v : GoString)
  | overwrite (v : Bool)
  | retries (v : Int)
deriving DecidableEq, Repr

/-- The call `flag.Parse()` of `main`: the flags are stored in order, and the
first failing `Set` stops the parse with its error. -/
def flagParse : List Flag → config → Except GoString config
  | [], cfg => .ok cfg
  | .url v :: rest, cfg => flagParse rest { cfg with url := v }
  | .apikey v :: rest, cfg => flagParse rest { cfg with apikey := v }
  | .uid v :: rest, cfg => flagParse rest { cfg with uid := v }
  | .replace v :: rest, cfg =>
    match cfg.replace.Set v with
    | .error err => .error err
    | .ok rs => flagParse rest { cfg with replace := rs }
  | .overwrite v :: rest, cfg => flagParse rest { cfg with overwrite := v }
  | .retries v :: rest, cfg => flagParse rest { cfg with retries := v }

/-- How the process ends: a flag rejected by `flag.Parse` (usage error, status
2), a `log.Fatal` with its message (status 1), or the success line. -/
inductive Exit where
  | flagError (msg : GoString)
  | fatal (msg : GoString)
  | processed
deriving DecidableEq, Repr

/-- What a run of `main` leaves behind. -/
structure MainRun (σ M X R : Type) where
  exit : Exit
  world : σ
  calls : List (Call M X R)

/-- The flag defaults registered in `main`. -/
def defaultConfig : config := ⟨[], [], [], ⟨[]⟩, true, 3⟩

/-- The function `main`. -/
def main {σ C M X R : Type} (api : Gapi σ C M X R) (json : Codec M)
    (args : List Flag) (w : σ) : MainRun σ M X R :=
  match flagParse args defaultConfig with
  | .error err => ⟨.flagError err, w, []⟩
  | .ok cfg =>
    match checkConfig cfg with
    | some err => ⟨.fatal (str "bad config: " ++ err), w, []⟩
    | none =>
      let run := processDashboard api json cfg w
      match run.err with
      | some err => ⟨.fatal (str "unable to process dashboard: " ++ err), run.world, run.calls⟩
      | none => ⟨.processed, run.world, run.calls⟩

/-! ## `encoding/json` on content models

The functions `json.Marshal` and `json.Unmarshal` of the Go standard library,
modelled from its documentation and behaviour for the type
`map[string]interface{}`: objects decode to maps, arrays to slices, numbers to
`float64`, and a later duplicate key replaces an earlier one.  They are used in
the concrete runs and in the round trip of a content model. -/

/-- A finite `float64`, written by its shortest decimal: the digits (ASCII,
without leading or trailing zero, none for zero) of the integer that, times
ten to the power `exp`, is the shortest decimal that rounds to the float; this
is the decimal `strconv.FormatFloat` prints with precision -1. -/
structure Float64 where
  neg : Bool
  digits : GoString
  exp : Int
deriving DecidableEq

/-- A JSON value as `json.Unmarshal` stores it into an `interface{}`.  An
object is its member list in increasing key order without repeated key, the
order in which `json.Marshal` writes a Go map. -/
inductive JSONValue where
  | null
  | bool (b : Bool)
  | number (n : Float64)
  | string (s : GoString)
  | array (items : List JSONValue)
  | object (members : List (GoString × JSONValue))

/-- A content model, Go's `map[string]interface{}`: `none` is the nil map. -/
abbrev Model := Option (List (GoString × JSONValue))

/-! ### Numbers -/

/-- The number of digits of `n` in the given base (0 for 0), added to `acc`;
the first argument bounds the number of steps. -/
def digitCount (base : Nat) : Nat → Nat → Nat → Nat
  | 0, _, acc => acc
  | fuel + 1, n, acc => if n = 0 then acc else digitCount base fuel (n / base) (acc + 1)

/-- Whether the rational `num / den` is at least `base ^ k`. -/
def ratGePow (base num den : Nat) (k : Int) : Bool :=
  if 0 ≤ k then decide (den * base ^ k.toNat ≤ num)
  else decide (den ≤ num * base ^ (-k).toNat)

/-- The floor of the logarithm of the positive rational `num / den`. -/
def ratLog (base num den : Nat) : Int :=
  let k : Int := (digitCount base num num 0 : Int) - (digitCount base den den 0 : Int)
  if ratGePow base num den k then k else k - 1

/-- The rational `num / (den * base ^ p)` as a numerator and a denominator. -/
def ratScale (base num den : Nat) (p : Int) : Nat × Nat :=
  if 0 ≤ p then (num, den * base ^ p.toNat) else (num * base ^ (-p).toNat, den)

/-- The `float64` nearest to the positive rational `num / den`, ties to the
even mantissa: the mantissa `m` and the binary exponent `e` of the float
`m * 2 ^ e`, with `m` of 53 bits, or fewer at the least exponent -1074;
`none` when the rounded value lies beyond the largest float. -/
def roundToFloat (num den : Nat) : Option (Nat × Int) :=
  let e : Int := max (ratLog 2 num den - 52) (-1074)
  let nd := ratScale 2 num den e
  let q := nd.1 / nd.2
  let r := nd.1 % nd.2
  let q1 := if nd.2 < 2 * r || (2 * r == nd.2 && q % 2 == 1) then q + 1 else q
  let me : Nat × Int := if q1 = 2 ^ 53 then (2 ^ 52, e + 1) else (q1, e)
  if 971 < me.2 then none else some me

/-- The search of the shortest decimal that rounds to the float `m * 2 ^ e`
(given also as the rational `num / den`, with `K` the floor of its decimal
logarithm): with `n` digits, the decimal below and the decimal above are
tried; when both round to the float the nearer is taken (the even one on a
tie).  The result is an integer and a power of ten. -/
def shortestSearch (m : Nat) (e : Int) (num den : Nat) (K : Int) : Nat → Nat → Nat × Int
  | 0, n =>
    let p := K - ((n : Int) - 1)
    let ab := ratScale 10 num den p
    (ab.1 / ab.2, p)
  | fuel + 1, n =>
    let p := K - ((n : Int) - 1)
    let ab := ratScale 10 num den p
    let lo := ab.1 / ab.2
    let r := ab.1 % ab.2
    let hi := lo + 1
    let clo := ratScale 10 lo 1 (-p)
    let chi := ratScale 10 hi 1 (-p)
    let okLo := roundToFloat clo.1 clo.2 == some (m, e)
    let okHi := roundToFloat chi.1 chi.2 == some (m, e)
    if okLo && okHi then
      if 2 * r < ab.2 then (lo, p)
      else if ab.2 < 2 * r then (hi, p)
      else if lo % 2 == 0 then (lo, p) else (hi, p)
    else if okLo then (lo, p)
    else if okHi then (hi, p)
    else shortestSearch m e num den K fuel (n + 1)

/-- Whether the byte is a decimal digit. -/
def isDigit (c : UInt8) : Bool := 0x30 ≤ c && c ≤ 0x39

/-- The number written by decimal digits. -/
def digitsToNat (ds : GoString) : Nat :=
  ds.foldl (fun n c => 10 * n + (c.toNat - 0x30)) 0

/-- The decimal digits of a number, the least significant first; the first
argument bounds the number of digits. -/
def natDigitsRev : Nat → Nat → GoString
  | 0, _ => []
  | fuel + 1, n =>
    if n < 10 then [UInt8.ofNat (0x30 + n)]
    else UInt8.ofNat (0x30 + n % 10) :: natDigitsRev fuel (n / 10)

/-- The decimal digits of a number. -/
def natToDigits (n : Nat) : GoString := (natDigitsRev (n + 1) n).reverse

/-- The digits without their leading zeros. -/
def dropZeros : GoString → GoString
  | [] => []
  | c :: rest => if c = 0x30 then dropZeros rest else c :: rest

/-- A decimal `digits * 10 ^ exp` without leading and trailing zero digits. -/
def normalizeDecimal (digits : GoString) (exp : Int) : GoString × Int :=
  let ds := dropZeros digits
  let rev := dropZeros ds.reverse
  (rev.reverse, exp + ((ds.length - rev.length : Nat) : Int))

/-- The float nearest to the decimal `digits * 10 ^ exp`, as
`strconv.ParseFloat` returns it; `none` when it is out of range. -/
def Float64.ofDecimal (neg : Bool) (digits : GoString) (exp : Int) : Option Float64 :=
  let dx := normalizeDecimal digits exp
  if dx.1 = [] then some ⟨neg, [], 0⟩
  else
    let v := ratScale 10 (digitsToNat dx.1) 1 (-dx.2)
    match roundToFloat v.1 v.2 with
    | none => none
    | some (m, e) =>
      if m = 0 then some ⟨neg, [], 0⟩
      else
        let f := ratScale 2 m 1 (-e)
        let cp := shortestSearch m e f.1 f.2 (ratLog 10 f.1 f.2) 17 1
        let sx := normalizeDecimal (natToDigits cp.1) cp.2
        some ⟨neg, sx.1, sx.2⟩

/-- The decimal `digits * 10 ^ exp` (at least one digit, the first not zero)
as `strconv.AppendFloat` writes it for `json.Marshal`: in the format `e` when
the value is below 1e-6 or at least 1e21 (the exponent without padding), in
the format `f` otherwise. -/
def formatDecimal (d : UInt8) (rest : GoString) (exp : Int) : GoString :=
  let nd : Int := ((d :: rest).length : Nat)
  let dp : Int := nd + exp
  if dp ≤ -6 || 22 ≤ dp then
    d :: (if rest.isEmpty then [] else 0x2E :: rest)
      ++ 0x65 :: (if dp - 1 < 0 then 0x2D else 0x2B) :: natToDigits (dp - 1).natAbs
  else if dp ≤ 0 then
    0x30 :: 0x2E :: (List.replicate (-dp).toNat 0x30 ++ d :: rest)
  else if nd ≤ dp then
    d :: rest ++ List.replicate (dp - nd).toNat 0x30
  else
    (d :: rest).take dp.toNat ++ 0x2E :: (d :: rest).drop dp.toNat

/-- A float as `json.Marshal` writes it: the sign, then the shortest decimal
that rounds to the float (`0` for zero). -/
def formatFloat (n : Float64) : GoString :=
  (if n.neg then [0x2D] else [])
    ++ (match n.digits with
        | [] => [0x30]
        | d :: rest => formatDecimal d rest n.exp)

/-! ### Writing -/

/-- The hexadecimal digit (lower case) of a number below 16. -/
def hexDigit (n : Nat) : UInt8 :=
  if n < 10 then UInt8.ofNat (0x30 + n) else UInt8.ofNat (0x61 + (n - 10))

/-- The escape `\u00XX` of a byte. -/
def escapeU00 (c : UInt8) : GoString :=
  str "\\u00" ++ [hexDigit (c.toNat / 16), hexDigit (c.toNat % 16)]

/-- The body of a string as `json.Marshal` writes it (HTML escaping on): the
quote, the backslash, control characters, the characters of HTML, U+2028 and
U+2029 are escaped, and a byte that starts no UTF-8 sequence is written as
the escape of U+FFFD. -/
def encodeChars : Nat → GoString → GoString
  | 0, _ => []
  | _ + 1, [] => []
  | fuel + 1, c :: rest =>
    if c = 0x22 then str "\\\"" ++ encodeChars fuel rest
    else if c = 0x5C then str "\\\\" ++ encodeChars fuel rest
    else if c = 0x08 then str "\\b" ++ encodeChars fuel rest
    else if c = 0x0C then str "\\f" ++ encodeChars fuel rest
    else if c = 0x0A then str "\\n" ++ encodeChars fuel rest
    else if c = 0x0D then str "\\r" ++ encodeChars fuel rest
    else if c = 0x09 then str "\\t" ++ encodeChars fuel rest
    else if c < 0x20 || c = 0x3C || c = 0x3E || c = 0x26 then
      escapeU00 c ++ encodeChars fuel rest
    else if c < 0x80 then c :: encodeChars fuel rest
    else
      let w := runeWidth (c :: rest)
      if w ≤ 1 then str "\\ufffd" ++ encodeChars fuel rest
      else if (c :: rest).take 3 = [0xE2, 0x80, 0xA8] then
        str "\\u2028" ++ encodeChars fuel (rest.drop 2)
      else if (c :: rest).take 3 = [0xE2, 0x80, 0xA9] then
        str "\\u2029" ++ encodeChars fuel (rest.drop 2)
      else (c :: rest).take w ++ encodeChars fuel ((c :: rest).drop w)

/-- A string as `json.Marshal` writes it. -/
def encodeString (s : GoString) : GoString :=
  [0x22] ++ encodeChars s.length s ++ [0x22]

mutual
/-- A value as `json.Marshal` writes it (compact, no white space). -/
def encodeValue : JSONValue → GoString
  | .null => str "null"
  | .bool true => str "true"
  | .bool false => str "false"
  | .number n => formatFloat n
  | .string s => encodeString s
  | .array items => [0x5B] ++ encodeItems items ++ [0x5D]
  | .object members => [0x7B] ++ encodeMembers members ++ [0x7D]
/-- The items of an array, separated by commas. -/
def encodeItems : List JSONValue → GoString
  | [] => []
  | v :: rest => encodeValue v ++ (if rest.isEmpty then [] else 0x2C :: encodeItems rest)
/-- The members of an object, separated by commas. -/
def encodeMembers : List (GoString × JSONValue) → GoString
  | [] => []
  | (k, v) :: rest =>
    encodeString k ++ 0x3A :: encodeValue v
      ++ (if rest.isEmpty then [] else 0x2C :: encodeMembers rest)
end

/-! ### Reading -/

/-- The character of an error message (`quoteChar`): the byte between single
quotes, escaped as `strconv.Quote` escapes the character with that code. -/
def quoteChar (c : UInt8) : GoString :=
  if c = 0x27 then str "'\\''"
  else if c = 0x22 then str "'\"'"
  else if c = 0x5C then str "'\\\\'"
  else if c = 0x07 then str "'\\a'"
  else if c = 0x08 then str "'\\b'"
  else if c = 0x0C then str "'\\f'"
  else if c = 0x0A then str "'\\n'"
  else if c = 0x0D then str "'\\r'"
  else if c = 0x09 then str "'\\t'"
  else if c = 0x0B then str "'\\v'"
  else if c < 0x20 || c = 0x7F then
    str "'\\x" ++ [hexDigit (c.toNat / 16), hexDigit (c.toNat % 16)] ++ str "'"
  else if c < 0x80 then [0x27, c, 0x27]
  else if c < 0xA1 || c = 0xAD then
    str "'\\u00" ++ [hexDigit (c.toNat / 16), hexDigit (c.toNat % 16)] ++ str "'"
  else [0x27] ++ String.utf8EncodeChar (Char.ofNat c.toNat) ++ [0x27]

/-- The message of a `SyntaxError` at the byte `c`. -/
def syntaxError (c : UInt8) (context : String) : GoString :=
  str "invalid character " ++ quoteChar c ++ str " " ++ str context

/-- The message of the `SyntaxError` at the end of an incomplete text. -/
def unexpectedEnd : GoString := str "unexpected end of JSON input"

/-- The message of an `UnmarshalTypeError`. -/
def typeError (value : GoString) (type : String) : GoString :=
  str "json: cannot unmarshal " ++ value ++ str " into Go value of type " ++ str type

/-- The white space of JSON, skipped between tokens. -/
def skipSpace : GoString → GoString
  | [] => []
  | c :: rest =>
    if c = 0x20 || c = 0x09 || c = 0x0D || c = 0x0A then skipSpace rest else c :: rest

/-- The value of a hexadecimal digit. -/
def hexVal (c : UInt8) : Option Nat :=
  if 0x30 ≤ c && c ≤ 0x39 then some (c.toNat - 0x30)
  else if 0x61 ≤ c && c ≤ 0x66 then some (c.toNat - 0x61 + 10)
  else if 0x41 ≤ c && c ≤ 0x46 then some (c.toNat - 0x41 + 10)
  else none

/-- The number written by the hexadecimal digits at the head of `s`, `n` of
them, after the digits `acc` already read, and the text after them; the
error of the scanner at the first byte that is no digit. -/
def hexDigits : Nat → Nat → GoString → Except GoString (Nat × GoString)
  | 0, acc, s => .ok (acc, s)
  | _ + 1, _, [] => .error unexpectedEnd
  | n + 1, acc, c :: rest =>
    match hexVal c with
    | some x => hexDigits n (acc * 16 + x) rest
    | none => .error (syntaxError c "in \\u hexadecimal character escape")

/-- The UTF-8 encoding of a code point. -/
def encodeRune (n : Nat) : GoString := String.utf8EncodeChar (Char.ofNat n)

/-- The code point of a `\uXXXX` escape whose digits are at the head of `s`,
with the text after it: a high surrogate followed by an escaped low surrogate
is the pair's code point, any other surrogate is U+FFFD. -/
def decodeEscapeU (s : GoString) : Except GoString (Nat × GoString) :=
  match hexDigits 4 0 s with
  | .error err => .error err
  | .ok (r, rest) =>
    if 0xD800 ≤ r && r < 0xDC00 then
      match rest with
      | 0x5C :: 0x75 :: rest1 =>
        match hexDigits 4 0 rest1 with
        | .ok (r1, rest2) =>
          if 0xDC00 ≤ r1 && r1 < 0xE000 then
            .ok (0x10000 + (r - 0xD800) * 0x400 + (r1 - 0xDC00), rest2)
          else .ok (0xFFFD, rest)
        | .error _ => .ok (0xFFFD, rest)
      | _ => .ok (0xFFFD, rest)
    else if 0xDC00 ≤ r && r < 0xE000 then .ok (0xFFFD, rest)
    else .ok (r, rest)

/-- The byte written by a one-letter escape. -/
def simpleEscape (e : UInt8) : Option UInt8 :=
  if e = 0x22 then some 0x22
  else if e = 0x5C then some 0x5C
  else if e = 0x2F then some 0x2F
  else if e = 0x62 then some 0x08
  else if e = 0x66 then some 0x0C
  else if e = 0x6E then some 0x0A
  else if e = 0x72 then some 0x0D
  else if e = 0x74 then some 0x09
  else none

/-- The body of a string literal up to its closing quote, decoded, and the text
after the quote.  A raw control character or an unknown escape is an error; a
byte that starts no UTF-8 sequence is read as U+FFFD. -/
def decodeChars : Nat → GoString → Except GoString (GoString × GoString)
  | 0, _ => .error unexpectedEnd
  | _ + 1, [] => .error unexpectedEnd
  | fuel + 1, c :: rest =>
    if c = 0x22 then .ok ([], rest)
    else if c = 0x5C then
      match rest with
      | [] => .error unexpectedEnd
      | e :: rest1 =>
        if e = 0x75 then
          match decodeEscapeU rest1 with
          | .error err => .error err
          | .ok (r, rest2) => (decodeChars fuel rest2).map fun q => (encodeRune r ++ q.1, q.2)
        else
          match simpleEscape e with
          | some b => (decodeChars fuel rest1).map fun q => (b :: q.1, q.2)
          | none => .error (syntaxError e "in string escape code")
    else if c < 0x20 then .error (syntaxError c "in string literal")
    else if c < 0x80 then (decodeChars fuel rest).map fun q => (c :: q.1, q.2)
    else
      let w := runeWidth (c :: rest)
      if w ≤ 1 then (decodeChars fuel rest).map fun q => (encodeRune 0xFFFD ++ q.1, q.2)
      else (decodeChars fuel ((c :: rest).drop w)).map fun q => ((c :: rest).take w ++ q.1, q.2)

/-- The rest of a literal name: the bytes expected one after the other, and
the text after them. -/
def expectLiteral (name : String) : GoString → GoString → Except GoString GoString
  | [], s => .ok s
  | _ :: _, [] => .error unexpectedEnd
  | x :: more, c :: rest =>
    if c = x then expectLiteral name more rest
    else .error (syntaxError c
      ("in literal " ++ name ++ " (expecting '" ++ String.singleton (Char.ofNat x.toNat) ++ "')"))

/-- The decimal digits at the head of the text, and the text after them. -/
def takeDigits : GoString → GoString × GoString
  | [] => ([], [])
  | c :: rest =>
    if isDigit c then ((c :: (takeDigits rest).1), (takeDigits rest).2) else ([], c :: rest)

/-- What the scanner demands after a byte of a number that needs a digit
next: the digits at the head of the text, at least one. -/
def needDigits (context : String) (s : GoString) : Except GoString (GoString × GoString) :=
  match s with
  | [] => .error unexpectedEnd
  | c :: _ => if isDigit c then .ok (takeDigits s) else .error (syntaxError c context)

/-- The integer part of a number literal: a single zero, or the digits at the
head of the text (the scanner ends the integer part after a leading zero). -/
def scanInteger (s : GoString) : Except GoString (GoString × GoString) :=
  match needDigits "in numeric literal" s with
  | .error err => .error err
  | .ok (digits, rest) =>
    if s.head? = some 0x30 then .ok ([0x30], s.drop 1) else .ok (digits, rest)

/-- The fraction of a number literal, when a decimal point follows. -/
def scanFraction (s : GoString) : Except GoString (GoString × GoString) :=
  match s with
  | [] => .ok ([], [])
  | c :: rest =>
    if c = 0x2E then needDigits "after decimal point in numeric literal" rest
    else .ok ([], c :: rest)

/-- The exponent of a number literal, when `e` or `E` follows. -/
def scanExponent (s : GoString) : Except GoString (Int × GoString) :=
  match s with
  | [] => .ok (0, [])
  | c :: rest =>
    if c = 0x65 || c = 0x45 then
      match needDigits "in exponent of numeric literal"
          (if rest.head? = some 0x2D || rest.head? = some 0x2B then rest.drop 1 else rest) with
      | .error err => .error err
      | .ok (digits, rest1) =>
        .ok (if rest.head? = some 0x2D then -(digitsToNat digits : Int)
             else (digitsToNat digits : Int), rest1)
    else .ok (0, c :: rest)

/-- A number literal at the head of the text: its value, the conversion error
kept for the end of the decoding when the value is out of range (the value is
then nil), and the text after the literal. -/
def scanNumber (s : GoString) : Except GoString (JSONValue × Option GoString × GoString) :=
  match scanInteger (if s.head? = some 0x2D then s.drop 1 else s) with
  | .error err => .error err
  | .ok (int, s2) =>
    match scanFraction s2 with
    | .error err => .error err
    | .ok (frac, s4) =>
      match scanExponent s4 with
      | .error err => .error err
      | .ok (x, rest) =>
        match Float64.ofDecimal (s.head? = some 0x2D) (int ++ frac)
            (x - ((frac.length : Nat) : Int)) with
        | some f => .ok (.number f, none, rest)
        | none =>
          .ok (.null,
            some (typeError (str "number " ++ s.take (s.length - rest.length)) "float64"), rest)

/-- Byte-wise order of two keys, the order of Go strings. -/
def keyLess : GoString → GoString → Bool
  | _, [] => false
  | [], _ :: _ => true
  | a :: s, b :: t => a < b || (a = b && keyLess s t)

/-- The member `k: v` stored into a member list kept in key order: a member
with the same key is replaced, as a later duplicate replaces an earlier one in
a Go map. -/
def setMember (k : GoString) (v : JSONValue) :
    List (GoString × JSONValue) → List (GoString × JSONValue)
  | [] => [(k, v)]
  | (k1, v1) :: rest =>
    if k = k1 then (k, v) :: rest
    else if keyLess k k1 then (k, v) :: (k1, v1) :: rest
    else (k1, v1) :: setMember k v rest

/-- The first of two kept errors. -/
def firstError (a b : Option GoString) : Option GoString :=
  match a with
  | some e => some e
  | none => b

mutual
/-- One JSON value at the head of the text (after white space): the value, the
first conversion error kept, and the text after the value; or the error of the
scanner at the first byte that cannot continue a JSON text.  The first
argument bounds the number of nested calls, the second is the number of arrays
and objects open (at most 10000 may be). -/
def parseValue : Nat → Nat → GoString →
    Except GoString (JSONValue × Option GoString × GoString)
  | 0, _, _ => .error unexpectedEnd
  | fuel + 1, depth, s =>
    match skipSpace s with
    | [] => .error unexpectedEnd
    | c :: rest =>
      if c = 0x7B then
        if 10000 < depth + 1 then .error (syntaxError c "exceeded max depth")
        else
          match skipSpace rest with
          | [] => .error unexpectedEnd
          | c1 :: rest1 =>
            if c1 = 0x7D then .ok (.object [], none, rest1)
            else (parseMembers fuel (depth + 1) rest [] none).map
                  fun r => (.object r.1, r.2.1, r.2.2)
      else if c = 0x5B then
        if 10000 < depth + 1 then .error (syntaxError c "exceeded max depth")
        else
          match skipSpace rest with
          | [] => .error unexpectedEnd
          | c1 :: rest1 =>
            if c1 = 0x5D then .ok (.array [], none, rest1)
            else (parseItems fuel (depth + 1) rest).map fun r => (.array r.1, r.2.1, r.2.2)
      else if c = 0x22 then
        (decodeChars rest.length rest).map fun r => (.string r.1, none, r.2)
      else if c = 0x2D || isDigit c then scanNumber (c :: rest)
      else if c = 0x74 then
        (expectLiteral "true" [0x72, 0x75, 0x65] rest).map fun r => (.bool true, none, r)
      else if c = 0x66 then
        (expectLiteral "false" [0x61, 0x6C, 0x73, 0x65] rest).map fun r => (.bool false, none, r)
      else if c = 0x6E then
        (expectLiteral "null" [0x75, 0x6C, 0x6C] rest).map fun r => (.null, none, r)
      else .error (syntaxError c "looking for beginning of value")
/-- The items of an array after its opening bracket or a comma, up to the
closing bracket. -/
def parseItems : Nat → Nat → GoString →
    Except GoString (List JSONValue × Option GoString × GoString)
  | 0, _, _ => .error unexpectedEnd
  | fuel + 1, depth, s =>
    match parseValue fuel depth s with
    | .error err => .error err
    | .ok (v, saved, rest) =>
      match skipSpace rest with
      | [] => .error unexpectedEnd
      | c :: rest1 =>
        if c = 0x2C then
          (parseItems fuel depth rest1).map fun r => (v :: r.1, firstError saved r.2.1, r.2.2)
        else if c = 0x5D then .ok ([v], saved, rest1)
        else .error (syntaxError c "after array element")
/-- The members of an object after its opening brace or a comma, up to the
closing brace, stored into `acc`. -/
def parseMembers : Nat → Nat → GoString → List (GoString × JSONValue) → Option GoString →
    Except GoString (List (GoString × JSONValue) × Option GoString × GoString)
  | 0, _, _, _, _ => .error unexpectedEnd
  | fuel + 1, depth, s, acc, saved =>
    match skipSpace s with
    | [] => .error unexpectedEnd
    | q :: rest =>
      if q = 0x22 then
        match decodeChars rest.length rest with
        | .error err => .error err
        | .ok (k, rest1) =>
          match skipSpace rest1 with
          | [] => .error unexpectedEnd
          | c :: rest2 =>
            if c = 0x3A then
              match parseValue fuel depth rest2 with
              | .error err => .error err
              | .ok (v, saved1, rest3) =>
                match skipSpace rest3 with
                | [] => .error unexpectedEnd
                | d :: rest4 =>
                  if d = 0x2C then
                    parseMembers fuel depth rest4 (setMember k v acc) (firstError saved saved1)
                  else if d = 0x7D then
                    .ok (setMember k v acc, firstError saved saved1, rest4)
                  else .error (syntaxError d "after object key:value pair")
            else .error (syntaxError c "after object key")
      else .error (syntaxError q "looking for beginning of object key string")
end

/-- The function `json.Unmarshal` into a freshly made map.  The text is read
with a space after its end, as the scanner does at the end of the input.  A
text that is not one JSON value is a syntax error; an object fills the map;
`null` leaves the nil map without error; any other value is a type error (a
number is not converted there: one out of range, read as nil with its error
kept, is a number like any other).
Every nested call of the reader is preceded by another call or by a byte read,
so twice the length of the text, plus four, bounds the nesting of the calls. -/
def Unmarshal (text : GoString) : Except GoString Model :=
  match parseValue (2 * text.length + 4) 0 (text ++ [0x20]) with
  | .error err => .error err
  | .ok (v, saved, rest) =>
    match skipSpace rest with
    | c :: _ => .error (syntaxError c "after top-level value")
    | [] =>
      match v with
      | .object members =>
        match saved with
        | some err => .error err
        | none => .ok (some members)
      | .null =>
        match saved with
        | some _ => .error (typeError (str "number") "map[string]interface \x7b\x7d")
        | none => .ok none
      | .array _ => .error (typeError (str "array") "map[string]interface \x7b\x7d")
      | .string _ => .error (typeError (str "string") "map[string]interface \x7b\x7d")
      | .bool _ => .error (typeError (str "bool") "map[string]interface \x7b\x7d")
      | .number _ => .error (typeError (str "number") "map[string]interface \x7b\x7d")

/-- The function `json.Marshal` on a content model. -/
def Marshal (m : Model) : Except GoString GoString :=
  match m with
  | none => .ok (str "null")
  | some members => .ok (encodeValue (.object members))

/-- The codec `encoding/json` on content models. -/
def jsonCodec : Codec Model := ⟨Marshal, Unmarshal⟩

/-! ### Well-formed content models -/

/-- The function `utf8.Valid`: the text is a sequence of well-formed UTF-8
sequences.  The first argument bounds the number of sequences. -/
def validUTF8 : Nat → GoString → Bool
  | 0, s => s.isEmpty
  | _ + 1, [] => true
  | fuel + 1, c :: rest =>
    if c < 0x80 then validUTF8 fuel rest
    else
      2 ≤ runeWidth (c :: rest)
        && validUTF8 fuel ((c :: rest).drop (runeWidth (c :: rest)))

/-- A float in its written form: decimal digits without leading or trailing
zero, and the float that `strconv.ParseFloat` returns for the decimal is the
float itself (the decimal is the shortest one of a `float64`). -/
def Float64.wellFormed (n : Float64) : Bool :=
  n.digits.all isDigit && n.digits.head? != some 0x30 && n.digits.getLast? != some 0x30
    && decide (Float64.ofDecimal n.neg n.digits n.exp = some n)

/-- Whether the text starts with a byte that ends a value written by
`json.Marshal`: a comma, a closing bracket or brace, or a space. -/
def terminated : GoString → Bool
  | [] => false
  | c :: _ => c = 0x2C || c = 0x5D || c = 0x7D || c = 0x20

/-- The value of decimal digits given the least significant first. -/
def valRev : GoString → Nat
  | [] => 0
  | c :: r => (c.toNat - 0x30) + 10 * valRev r

/-- The text, read as the three parts of a number literal (integer part,
fraction, exponent) up to `rest`, is the decimal `digits * 10 ^ exp`. -/
def ScansTo (text rest digits : GoString) (exp : Int) : Prop :=
  ∃ int s2 frac s4 x,
    scanInteger text = .ok (int, s2)
    ∧ scanFraction s2 = .ok (frac, s4)
    ∧ scanExponent s4 = .ok (x, rest)
    ∧ normalizeDecimal (int ++ frac) (x - ((frac.length : Nat) : Int)) = (digits, exp)

/-- Whether the keys after `k` follow it in strictly increasing order. -/
def keysFrom (k : GoString) : List GoString → Bool
  | [] => true
  | b :: rest => keyLess k b && keysFrom b rest

/-- Whether the keys are in strictly increasing order. -/
def keysIncreasing : List GoString → Bool
  | [] => true
  | a :: rest => keysFrom a rest

mutual
/-- A value that `json.Unmarshal` can return: its strings are valid UTF-8, the
keys of each object are in strictly increasing order, and its numbers are in
their written form. -/
def JSONValue.wellFormed : JSONValue → Bool
  | .null => true
  | .bool _ => true
  | .number n => n.wellFormed
  | .string s => validUTF8 s.length s
  | .array items => wellFormedItems items
  | .object members => keysIncreasing (members.map Prod.fst) && wellFormedMembers members
/-- Every item is well formed. -/
def wellFormedItems : List JSONValue → Bool
  | [] => true
  | v :: rest => v.wellFormed && wellFormedItems rest
/-- Every key is valid UTF-8 and every member value is well formed. -/
def wellFormedMembers : List (GoString × JSONValue) → Bool
  | [] => true
  | (k, v) :: rest => validUTF8 k.length k && v.wellFormed && wellFormedMembers rest
end

mutual
/-- The number of arrays and objects open at the deepest place of a value. -/
def JSONValue.depth : JSONValue → Nat
  | .array items => depthItems items + 1
  | .object members => depthMembers members + 1
  | _ => 0
/-- The greatest depth of the items. -/
def depthItems : List JSONValue → Nat
  | [] => 0
  | v :: rest => max v.depth (depthItems rest)
/-- The greatest depth of the member values. -/
def depthMembers : List (GoString × JSONValue) → Nat
  | [] => 0
  | (_, v) :: rest => max v.depth (depthMembers rest)
end

mutual
/-- The number of values, items and members of a value: a bound on the nested
calls that reading it takes. -/
def JSONValue.size : JSONValue → Nat
  | .array items => sizeItems items + 1
  | .object members => sizeMembers members + 1
  | _ => 1
/-- The size of the items. -/
def sizeItems : List JSONValue → Nat
  | [] => 0
  | v :: rest => v.size + sizeItems rest + 1
/-- The size of the members. -/
def sizeMembers : List (GoString × JSONValue) → Nat
  | [] => 0
  | (_, v) :: rest => v.size + sizeMembers rest + 1
end

/-- A content model that `json.Unmarshal` can return: the nil map, or a well
formed object nested at most 10000 deep (the limit of the decoder). -/
def Model.wellFormed (m : Model) : Bool :=
  match m with
  | none => true
  | some members =>
    (JSONValue.object members).wellFormed && decide ((JSONValue.object members).depth ≤ 10000)

/-- Whether the byte can start a value written by `json.Marshal`. -/
def valueStart (c : UInt8) : Bool :=
  c = 0x6E || c = 0x74 || c = 0x66 || c = 0x22 || c = 0x5B || c = 0x7B || c = 0x2D || isDigit c

/-- Byte-for-byte replacement of the byte `a` by the byte `b`. -/
def mapByte (a b : UInt8) (t : GoString) : GoString :=
  t.map fun c => if c = a then b else c

/-! ## A Grafana service in memory -/

/-- The remote service of the concrete runs: one dashboard stored under a uid,
and the number of saves it has received. -/
structure Remote where
  uid : GoString
  dashboard : Dashboard Model Unit
  saves : Nat

/-- A client of `Remote`: a fetch of the stored uid returns the dashboard, any
other uid is not found; a write stores the dashboard. -/
def memoryGapi : Gapi Remote Unit Model Unit Unit where
  New _ _ _ := .ok ()
  DashboardByUID _ uid w :=
    if uid = w.uid then (.ok w.dashboard, w) else (.error (str "status: 404"), w)
  NewDashboard _ d w := (.ok (), { w with dashboard := d, saves := w.saves + 1 })

/-- The model `{"title":"old-name","query":"select * from old-name"}`. -/
def oldModel : Model :=
  some [(str "query", .string (str "select * from old-name")),
        (str "title", .string (str "old-name"))]

/-- The model `{"title":"new-name","query":"select * from new-name"}`. -/
def newModel : Model :=
  some [(str "query", .string (str "select * from new-name")),
        (str "title", .string (str "new-name"))]

/-- The dashboard of the end-to-end scenario as stored remotely. -/
def oldDashboard : Dashboard Model Unit := ⟨oldModel, false, [], ()⟩

/-- The remote service of the end-to-end scenario. -/
def oldRemote : Remote := ⟨str "dash-1", oldDashboard, 0⟩

/-- A configuration with the given rules for the dashboard `dash-1`. -/
def configWith (rs : List replacement) : config :=
  ⟨str "http://grafana.example", str "secret", str "dash-1", ⟨rs⟩, true, 3⟩

/-- The configuration of the end-to-end scenario: `old-name<=>new-name`. -/
def renameConfig : config := configWith [⟨str "old-name", str "new-name"⟩]

/-- The text `json.Marshal` writes for `oldModel` (keys in increasing order). -/
def oldText : GoString :=
  str "\x7b\"query\":\"select * from old-name\",\"title\":\"old-name\"\x7d"

/-- The text of `oldText` after the rule `old-name<=>new-name`. -/
def newText : GoString :=
  str "\x7b\"query\":\"select * from new-name\",\"title\":\"new-name\"\x7d"

/-- The expected model of the end-to-end scenario, as the spec writes it. -/
def newTextAsSpecified : GoString :=
  str "\x7b\"title\":\"new-name\",\"query\":\"select * from new-name\"\x7d"

/-- The text of `oldText` after the rule that puts a bare quote into the
strings. -/
def brokenText : GoString :=
  str "\x7b\"query\":\"select * from new\"name\",\"title\":\"new\"name\"\x7d"

/-- A model with every kind of value:
`{"editable":true,"id":7,"panels":[{"datasource":null,"title":"cpu <5m>"}],"refresh":1.5,"title":"old-name"}`. -/
def panelModel : Model :=
  some [(str "editable", .bool true),
        (str "id", .number ⟨false, str "7", 0⟩),
        (str "panels",
          .array [.object [(str "datasource", .null), (str "title", .string (str "cpu <5m>"))]]),
        (str "refresh", .number ⟨false, str "15", -1⟩),
        (str "title", .string (str "old-name"))]

/-- The text `json.Marshal` writes for `panelModel`. -/
def panelText : GoString :=
  str ("\x7b\"editable\":true,\"id\":7,\"panels\":[\x7b\"datasource\":null,"
    ++ "\"title\":\"cpu \\u003c5m\\u003e\"\x7d],\"refresh\":1.5,\"title\":\"old-name\"\x7d")

/-- The dashboard with `panelModel` as stored remotely. -/
def panelDashboard : Dashboard Model Unit := ⟨panelModel, false, [], ()⟩

/-- The remote service that stores `panelDashboard`. -/
def panelRemote : Remote := ⟨str "dash-1", panelDashboard, 0⟩

/-- The configuration with the rule `staging<=>production`. -/
def stagingConfig : config := configWith [⟨str "staging", str "production"⟩]

/-- The model whose title is the single byte FF, which is not UTF-8. -/
def rawByteModel : Model := some [(str "title", .string [0xFF])]

/-- The model whose title is the replacement character U+FFFD. -/
def replacedByteModel : Model := some [(str "title", .string [0xEF, 0xBF, 0xBD])]

/-- The text `json.Marshal` writes for `rawByteModel`. -/
def rawByteText : GoString := str "\x7b\"title\":\"\\ufffd\"\x7d"

/-- The dashboard with `rawByteModel` as stored remotely. -/
def rawByteDashboard : Dashboard Model Unit := ⟨rawByteModel, false, [], ()⟩

/-- The remote service that stores `rawByteDashboard`. -/
def rawByteRemote : Remote := ⟨str "dash-1", rawByteDashboard, 0⟩

/-- The empty model `{}`. -/
def emptyModel : Model := some []

/-- The dashboard with the empty model as stored remotely. -/
def emptyDashboard : Dashboard Model Unit := ⟨emptyModel, false, [], ()⟩

/-- The remote service that stores `emptyDashboard`. -/
def emptyRemote : Remote := ⟨str "dash-1", emptyDashboard, 0⟩

/-- The configuration with the rule that replaces `{}` by `null`. -/
def nullConfig : config := configWith [⟨str "\x7b\x7d", str "null"⟩]

/-- Arrays nested in one another: `deepArray k` is `k + 1` arrays deep. -/
def deepArray : Nat → JSONValue
  | 0 => .array []
  | k + 1 => .array [deepArray k]

/-- The model `{"a":[[...]]}` with `k + 1` arrays nested: it is `k + 2` deep. -/
def deepModel (k : Nat) : Model := some [(str "a", deepArray k)]

/-- The text `{"a":[[...]]}` with `k + 1` arrays nested. -/
def deepText (k : Nat) : GoString :=
  str "\x7b\"a\":" ++ (List.replicate (k + 1) 0x5B ++ List.replicate (k + 1) 0x5D) ++ str "\x7d"

/-- The dashboard with `deepModel k` as stored remotely. -/
def deepDashboard (k : Nat) : Dashboard Model Unit := ⟨deepModel k, false, [], ()⟩

/-- The remote service that stores `deepDashboard k`. -/
def deepRemote (k : Nat) : Remote := ⟨str "dash-1", deepDashboard k, 0⟩

/-! ## Lemmas on `bytes.ReplaceAll` and the substitution loop -/

/-- The test `bytes.HasPrefix` decides the prefix relation. -/
theorem hasPrefix_iff (s pre : GoString) : HasPrefix s pre = true ↔ pre <+: s := by
  unfold HasPrefix
  exact List.isPrefixOf_iff_prefix

/-- A scan over a text in which `old` does not occur copies the text. -/
theorem replaceScan_no_match (old new : GoString) (fuel : Nat) (s : GoString)
    (h : ¬ old <:+: s) : replaceScan old new fuel s = s := by
  induction fuel generalizing s with
  | zero => rfl
  | succ n ih =>
    have hp : HasPrefix s old = false := by
      cases hb : HasPrefix s old with
      | false => rfl
      | true => exact absurd ((hasPrefix_iff s old).1 hb).isInfix h
    cases s with
    | nil => simp [replaceScan, hp]
    | cons c rest =>
      have hr : ¬ old <:+: rest := fun hi => h (hi.trans (List.suffix_cons c rest).isInfix)
      simp [replaceScan, hp, ih rest hr]

/-- The scan of the empty text is empty. -/
theorem replaceScan_nil (old new : GoString) (hne : old ≠ []) (fuel : Nat) :
    replaceScan old new fuel [] = [] := by
  cases fuel with
  | zero => rfl
  | succ n =>
    have hp : HasPrefix [] old = false := by
      cases old with
      | nil => exact absurd rfl hne
      | cons a t => rfl
    simp [replaceScan, hp]

/-- The scan does not depend on its bound once the bound reaches the length of
the text: every step passes over at least one byte. -/
theorem replaceScan_fuel (old new : GoString) (hne : old ≠ []) (f1 f2 : Nat) (s : GoString)
    (h1 : s.length ≤ f1) (h2 : s.length ≤ f2) :
    replaceScan old new f1 s = replaceScan old new f2 s := by
  induction f1 generalizing f2 s with
  | zero =>
    have hs : s = [] := List.length_eq_zero.1 (Nat.le_zero.1 h1)
    subst hs
    rw [replaceScan_nil old new hne, replaceScan_nil old new hne]
  | succ n ih =>
    cases f2 with
    | zero =>
      have hs : s = [] := List.length_eq_zero.1 (Nat.le_zero.1 h2)
      subst hs
      rw [replaceScan_nil old new hne, replaceScan_nil old new hne]
    | succ m =>
      cases s with
      | nil => rw [replaceScan_nil old new hne, replaceScan_nil old new hne]
      | cons c rest =>
        have hn : rest.length ≤ n := by simpa using h1
        have hm : rest.length ≤ m := by simpa using h2
        have hpos : 0 < old.length := List.length_pos.2 hne
        have hd : ((c :: rest).drop old.length).length ≤ rest.length := by
          simp only [List.length_drop, List.length_cons]
          omega
        simp only [replaceScan]
        rw [ih m ((c :: rest).drop old.length) (hd.trans hn) (hd.trans hm), ih m rest hn hm]

/-- The call `bytes.ReplaceAll` for a non-empty `old`, one step at a time: an
occurrence of `old` at the head is replaced and the rest after it is treated
in the same way; otherwise the first byte is kept. -/
theorem ReplaceAll_step (s old new : GoString) (hne : old ≠ []) :
    ReplaceAll s old new
      = if old <+: s then new ++ ReplaceAll (s.drop old.length) old new
        else
          match s with
          | [] => []
          | c :: rest => c :: ReplaceAll rest old new := by
  cases s with
  | nil =>
    have hp : ¬ old <+: [] := by
      intro hp
      exact hne (List.prefix_nil.1 hp)
    simp [ReplaceAll, hne, replaceScan, hp]
  | cons c rest =>
    have hpos : 0 < old.length := List.length_pos.2 hne
    have hd : ((c :: rest).drop old.length).length ≤ rest.length := by
      simp only [List.length_drop, List.length_cons]
      omega
    simp only [ReplaceAll, hne, if_false, List.length_cons, replaceScan]
    rw [replaceScan_fuel old new hne rest.length ((c :: rest).drop old.length).length
      ((c :: rest).drop old.length) hd (Nat.le_refl _)]
    by_cases hp : old <+: c :: rest
    · simp [hp, (hasPrefix_iff (c :: rest) old).2 hp]
    · have hb : HasPrefix (c :: rest) old = false := by
        cases hb : HasPrefix (c :: rest) old with
        | false => rfl
        | true => exact absurd ((hasPrefix_iff _ old).1 hb) hp
      simp [hp, hb]

/-- The call `bytes.ReplaceAll` leaves a text without an occurrence of `old`
unchanged; such an `old` is not empty, the empty slice occurring everywhere. -/
theorem ReplaceAll_no_match (s old new : GoString) (h : ¬ old <:+: s) :
    ReplaceAll s old new = s := by
  have hne : old ≠ [] := by
    rintro rfl
    exact h List.nil_infix
  simp [ReplaceAll, hne, replaceScan_no_match old new s.length s h]

/-- The substitution loop leaves a text unchanged when no rule's key occurs in
it. -/
theorem substitute_no_match (rs : List replacement) (t : GoString)
    (h : ∀ r ∈ rs, ¬ r.key <:+: t) : substitute rs t = t := by
  induction rs with
  | nil => rfl
  | cons r rest ih =>
    have h1 : ReplaceAll t r.key r.val = t :=
      ReplaceAll_no_match t r.key r.val (h r (List.mem_cons_self r rest))
    simp only [substitute, h1]
    exact ih fun q hq => h q (List.mem_cons_of_mem r hq)

/-- A scan for a one-byte `old` with a one-byte `new` maps the text byte by byte. -/
theorem replaceScan_byte (a b : UInt8) (fuel : Nat) (s : GoString) (h : s.length ≤ fuel) :
    replaceScan [a] [b] fuel s = mapByte a b s := by
  induction fuel generalizing s with
  | zero =>
    have : s = [] := List.length_eq_zero.1 (Nat.le_zero.1 h)
    subst this
    rfl
  | succ n ih =>
    cases s with
    | nil => simp [replaceScan, HasPrefix, mapByte]
    | cons c rest =>
      have hl : rest.length ≤ n := by simpa using h
      by_cases hc : c = a
      · subst hc
        simp [replaceScan, HasPrefix, mapByte, ih rest hl]
      · have hc2 : ¬ a = c := fun e => hc e.symm
        simp [replaceScan, HasPrefix, mapByte, ih rest hl, hc, hc2]

/-- The call `bytes.ReplaceAll` with a one-byte `old` and a one-byte `new` is the
byte-for-byte map. -/
theorem ReplaceAll_byte (a b : UInt8) (s : GoString) :
    ReplaceAll s [a] [b] = mapByte a b s := by
  simp [ReplaceAll, replaceScan_byte a b s.length s (Nat.le_refl _)]

/-- A one-byte slice occurs in a text exactly when the byte is in it. -/
theorem byte_infix_iff (a : UInt8) (s : GoString) : [a] <:+: s ↔ a ∈ s := by
  constructor
  · rintro ⟨p, q, rfl⟩
    simp
  · intro h
    obtain ⟨p, q, rfl⟩ := List.append_of_mem h
    exact ⟨p, q, by simp⟩

/-- Mapping a byte that is not in the text changes nothing. -/
theorem mapByte_absent (a b : UInt8) (t : GoString) (h : a ∉ t) : mapByte a b t = t := by
  induction t with
  | nil => rfl
  | cons c rest ih =>
    have hc : c ≠ a := fun e => h (by simp [e])
    have hr : a ∉ rest := fun hm => h (List.mem_cons_of_mem c hm)
    have := ih hr
    simp only [mapByte] at this ⊢
    simp [hc, this]

/-- Mapping `a` to `b` and then `b` to `c`, on a text without `b`, maps `a` to
`c`. -/
theorem mapByte_chain (a b c : UInt8) (t : GoString) (h : b ∉ t) :
    mapByte b c (mapByte a b t) = mapByte a c t := by
  induction t with
  | nil => rfl
  | cons x rest ih =>
    have hx : x ≠ b := fun e => h (by simp [e])
    have hr : b ∉ rest := fun hm => h (List.mem_cons_of_mem x hm)
    have := ih hr
    simp only [mapByte] at this ⊢
    by_cases hxa : x = a
    · simp [hxa, this]
    · simp [hxa, hx, this]

/-! ## Rule order (C1) -/

/-- C1: on a text `t` without "B", the rules `A<=>B`, `B<=>C` in that order
give the text with every "A" replaced by "C" (on "A": "C"), and the rules
`B<=>C`, `A<=>B` give the text with every "A" replaced by "B", which is not
substituted again (on "A": "B").  Both results are the byte-for-byte maps. -/
theorem rule_order_is_significant (t : GoString) (h : ¬ str "B" <:+: t) :
    substitute [⟨str "A", str "B"⟩, ⟨str "B", str "C"⟩] t = ReplaceAll t (str "A") (str "C")
    ∧ substitute [⟨str "A", str "B"⟩, ⟨str "B", str "C"⟩] (str "A") = str "C"
    ∧ substitute [⟨str "B", str "C"⟩, ⟨str "A", str "B"⟩] t = ReplaceAll t (str "A") (str "B")
    ∧ substitute [⟨str "B", str "C"⟩, ⟨str "A", str "B"⟩] (str "A") = str "B"
    ∧ ReplaceAll t (str "A") (str "C") = mapByte 0x41 0x43 t
    ∧ ReplaceAll t (str "A") (str "B") = mapByte 0x41 0x42 t := by
  have hA : str "A" = [0x41] := by decide
  have hB : str "B" = [0x42] := by decide
  have hC : str "C" = [0x43] := by decide
  rw [hB] at h
  have hb : (0x42 : UInt8) ∉ t := fun hm => h ((byte_infix_iff 0x42 t).2 hm)
  refine ⟨?_, by decide, ?_, by decide, ?_, ?_⟩
  · simp only [substitute, hA, hB, hC, ReplaceAll_byte]
    exact mapByte_chain 0x41 0x42 0x43 t hb
  · simp only [substitute, hA, hB, hC, ReplaceAll_byte]
    rw [mapByte_absent 0x42 0x43 t hb]
  · rw [hA, hC, ReplaceAll_byte]
  · rw [hA, hB, ReplaceAll_byte]

/-- On the text `xAyAA`, which has no "B", the two rule orders give `xCyCC` and
`xByBB`. -/
theorem rule_order_is_significant_witness :
    ¬ str "B" <:+: str "xAyAA"
    ∧ substitute [⟨str "A", str "B"⟩, ⟨str "B", str "C"⟩] (str "xAyAA") = str "xCyCC"
    ∧ substitute [⟨str "B", str "C"⟩, ⟨str "A", str "B"⟩] (str "xAyAA") = str "xByBB" := by
  have hno : ¬ str "B" <:+: str "xAyAA" := by decide
  have h := rule_order_is_significant (str "xAyAA") hno
  refine ⟨hno, ?_, ?_⟩
  · rw [h.1]
    decide
  · rw [h.2.2.1]
    decide

/-! ## The audit message (C5, C10) -/

/-- Joining a non-empty list with a separator: the head, then every other item
after the separator. -/
theorem intercalate_cons (sep x : GoString) (xs : List GoString) :
    List.intercalate sep (x :: xs) = x ++ (xs.map fun y => sep ++ y).flatten := by
  induction xs generalizing x with
  | nil => simp [List.intercalate]
  | cons y ys ih =>
    have h := ih y
    simp only [List.intercalate, List.intersperse, List.flatten, List.map] at h ⊢
    rw [h, List.append_assoc]

/-- From the second rule on, the loop appends ", " and the rule for every rule
left. -/
theorem replacerMessageLoop_succ (i : Nat) (rs : List replacement) (b : GoString) :
    replacerMessageLoop (i + 1) rs b
      = b ++ (rs.map fun r => str ", " ++ (r.key ++ str "<=>" ++ r.val)).flatten := by
  induction rs generalizing i b with
  | nil => simp [replacerMessageLoop]
  | cons r rest ih =>
    simp only [replacerMessageLoop, ih, gt_iff_lt, Nat.zero_lt_succ, if_true,
      List.map, List.flatten, List.append_assoc]

/-- C5: the audit message is the fixed prefix followed by the strings
`key<=>value` of the rules, in the order supplied, joined by ", ", without
escaping; for the rules `A<=>B`, `C<=>D` it is the prefix followed by
`A<=>B, C<=>D`. -/
theorem replacerMessage_eq (cfg : config) :
    replacerMessage cfg
      = str "String replacement by aiven-grafana-string-replacer: "
        ++ List.intercalate (str ", ")
            (cfg.replace.rs.map fun r => r.key ++ str "<=>" ++ r.val)
    ∧ replacerMessage { cfg with replace := ⟨[⟨str "A", str "B"⟩, ⟨str "C", str "D"⟩]⟩ }
      = str "String replacement by aiven-grafana-string-replacer: A<=>B, C<=>D" := by
  have hp : str "String replacement by aiven-grafana-string-replacer" ++ str ": "
      = str "String replacement by aiven-grafana-string-replacer: " := by decide
  constructor
  · unfold replacerMessage
    rw [hp]
    cases hrs : cfg.replace.rs with
    | nil => simp [replacerMessageLoop, List.intercalate]
    | cons r rest =>
      simp only [replacerMessageLoop, replacerMessageLoop_succ, List.map, intercalate_cons,
        gt_iff_lt, Nat.lt_irrefl, if_false, List.map_map, List.append_assoc]
      rfl
  · show replacerMessageLoop 0 [⟨str "A", str "B"⟩, ⟨str "C", str "D"⟩] _ = _
    decide

/-- C10: the audit message does not determine the rule list: the one rule
`a<=>b, c<=>d` and the two rules `a<=>b`, `c<=>d` are different lists with the
same message, the prefix followed by `a<=>b, c<=>d`. -/
theorem replacerMessage_not_injective :
    (⟨[⟨str "a", str "b, c<=>d"⟩]⟩ : replacements)
      ≠ ⟨[⟨str "a", str "b"⟩, ⟨str "c", str "d"⟩]⟩
    ∧ ∀ cfg : config,
      replacerMessage { cfg with replace := ⟨[⟨str "a", str "b, c<=>d"⟩]⟩ }
        = replacerMessage { cfg with replace := ⟨[⟨str "a", str "b"⟩, ⟨str "c", str "d"⟩]⟩ }
      ∧ replacerMessage { cfg with replace := ⟨[⟨str "a", str "b, c<=>d"⟩]⟩ }
        = str "String replacement by aiven-grafana-string-replacer: a<=>b, c<=>d" := by
  refine ⟨by decide, fun cfg => ?_⟩
  have h1 : replacerMessage { cfg with replace := ⟨[⟨str "a", str "b, c<=>d"⟩]⟩ }
      = str "String replacement by aiven-grafana-string-replacer: a<=>b, c<=>d" := by
    show replacerMessageLoop 0 [⟨str "a", str "b, c<=>d"⟩] _ = _
    decide
  have h2 : replacerMessage { cfg with replace := ⟨[⟨str "a", str "b"⟩, ⟨str "c", str "d"⟩]⟩ }
      = str "String replacement by aiven-grafana-string-replacer: a<=>b, c<=>d" := by
    show replacerMessageLoop 0 [⟨str "a", str "b"⟩, ⟨str "c", str "d"⟩] _ = _
    decide
  exact ⟨h1.trans h2.symm, h1⟩

/-! ## Input validation (C6, C7) -/

/-- C6: `checkConfig` returns an error exactly when url, apikey or uid is
empty or there is no rule; overwrite and retries never matter; and the error
names the first missing input in the order url, apikey, uid, replace. -/
theorem checkConfig_rejects_iff (cfg : config) :
    (checkConfig cfg ≠ none
      ↔ cfg.url = [] ∨ cfg.apikey = [] ∨ cfg.uid = [] ∨ cfg.replace.rs = [])
    ∧ (∀ (o : Bool) (n : Int),
        checkConfig { cfg with overwrite := o, retries := n } = checkConfig cfg)
    ∧ (cfg.url = [] → checkConfig cfg = some (str "'url' is required"))
    ∧ (cfg.url ≠ [] → cfg.apikey = [] → checkConfig cfg = some (str "'apikey' is required"))
    ∧ (cfg.url ≠ [] → cfg.apikey ≠ [] → cfg.uid = [] →
        checkConfig cfg = some (str "'uid' is required"))
    ∧ (cfg.url ≠ [] → cfg.apikey ≠ [] → cfg.uid ≠ [] → cfg.replace.rs = [] →
        checkConfig cfg = some (str "'replace' is required")) := by
  refine ⟨?_, fun o n => rfl, ?_, ?_, ?_, ?_⟩
  · unfold checkConfig
    by_cases h1 : cfg.url = []
    · simp [h1]
    · by_cases h2 : cfg.apikey = []
      · simp [h1, h2]
      · by_cases h3 : cfg.uid = []
        · simp [h1, h2, h3]
        · by_cases h4 : cfg.replace.rs = []
          · simp [h1, h2, h3, h4]
          · simp [h1, h2, h3, h4]
  · intro h1
    simp [checkConfig, h1]
  · intro h1 h2
    simp [checkConfig, h1, h2]
  · intro h1 h2 h3
    simp [checkConfig, h1, h2, h3]
  · intro h1 h2 h3 h4
    simp [checkConfig, h1, h2, h3, h4]

/-- C7, as stated, fails: `checkConfig` accepts a configuration whose only
rule has the empty key, and that rule reaches the substitution loop, where it
matches at every rune boundary. -/
theorem checkConfig_accepts_empty_key :
    checkConfig (configWith [⟨[], str "x"⟩]) = none
    ∧ (∃ r ∈ (configWith [⟨[], str "x"⟩]).replace.rs, r.key = [])
    ∧ substitute (configWith [⟨[], str "x"⟩]).replace.rs (str "ab") = str "xaxbx"
    ∧ ¬ ∀ cfg : config, checkConfig cfg = none → ∀ r ∈ cfg.replace.rs, r.key ≠ [] := by
  refine ⟨by decide, ⟨⟨[], str "x"⟩, by decide, rfl⟩, by decide, fun h => ?_⟩
  exact h (configWith [⟨[], str "x"⟩]) (by decide) ⟨[], str "x"⟩ (by decide) rfl

/-- C7, amended: a configuration that `checkConfig` accepts has a non-empty
url, apikey and uid and at least one rule; the rules themselves are not
inspected, so the same configuration with any other non-empty rule list is
accepted as well. -/
theorem checkConfig_accepted (cfg : config) (h : checkConfig cfg = none) :
    cfg.url ≠ [] ∧ cfg.apikey ≠ [] ∧ cfg.uid ≠ [] ∧ cfg.replace.rs ≠ []
    ∧ ∀ rs : List replacement, rs ≠ [] → checkConfig { cfg with replace := ⟨rs⟩ } = none := by
  unfold checkConfig at h
  by_cases h1 : cfg.url = []
  · simp [h1] at h
  · by_cases h2 : cfg.apikey = []
    · simp [h1, h2] at h
    · by_cases h3 : cfg.uid = []
      · simp [h1, h2, h3] at h
      · by_cases h4 : cfg.replace.rs = []
        · simp [h1, h2, h3, h4] at h
        · refine ⟨h1, h2, h3, h4, fun rs hrs => ?_⟩
          simp [checkConfig, h1, h2, h3, hrs]

/-- The scenario's configuration is accepted, has a rule, and stays accepted
with its rules replaced by one with the empty key. -/
theorem checkConfig_accepted_witness :
    checkConfig renameConfig = none
    ∧ renameConfig.replace.rs ≠ []
    ∧ checkConfig { renameConfig with replace := ⟨[⟨[], str "x"⟩]⟩ } = none := by
  have h := checkConfig_accepted renameConfig (by decide)
  exact ⟨by decide, h.2.2.2.1, h.2.2.2.2 [⟨[], str "x"⟩] (by decide)⟩

/-! ## The round trip of `encoding/json` -/

/-- A property of every byte, checked on the 256 byte values. -/
theorem forall_byte (P : UInt8 → Prop) (h : ∀ n, n < 256 → P (UInt8.ofNat n)) (c : UInt8) :
    P c := by
  have h1 := h c.toNat (UInt8.toNat_lt c)
  have h2 : UInt8.ofNat c.toNat = c := by
    apply UInt8.toNat.inj
    exact UInt8.toNat_ofNat_of_lt (UInt8.toNat_lt c)
  rwa [h2] at h1

/-- The lead byte of a multi-byte sequence announces 2, 3 or 4 bytes. -/
theorem utf8Lead_size (p0 : UInt8) (sz : Nat) (lo hi : UInt8)
    (h : utf8Lead p0 = some (sz, lo, hi)) : sz = 2 ∨ sz = 3 ∨ sz = 4 := by
  unfold utf8Lead at h
  split_ifs at h <;> simp at h <;> omega

/-- An ASCII byte is not a lead byte. -/
theorem utf8Lead_ascii (p0 : UInt8) : p0 < 0x80 → utf8Lead p0 = none := by
  revert p0
  apply forall_byte
  decide

/-- The width of the first sequence, by the number of bytes the lead byte
announces. -/
theorem runeWidth_cases (p0 : UInt8) (rest : GoString) :
    (runeWidth (p0 :: rest) = 1)
    ∨ (∃ lo hi b1 r1, utf8Lead p0 = some (2, lo, hi) ∧ rest = b1 :: r1
        ∧ ¬ (b1 < lo ∨ hi < b1) ∧ runeWidth (p0 :: rest) = 2)
    ∨ (∃ lo hi b1 b2 r2, utf8Lead p0 = some (3, lo, hi) ∧ rest = b1 :: b2 :: r2
        ∧ ¬ (b1 < lo ∨ hi < b1) ∧ isCont b2 = true ∧ runeWidth (p0 :: rest) = 3)
    ∨ (∃ lo hi b1 b2 b3 r3, utf8Lead p0 = some (4, lo, hi) ∧ rest = b1 :: b2 :: b3 :: r3
        ∧ ¬ (b1 < lo ∨ hi < b1) ∧ isCont b2 = true ∧ isCont b3 = true
        ∧ runeWidth (p0 :: rest) = 4) := by
  cases hl : utf8Lead p0 with
  | none => left; simp [runeWidth, hl]
  | some t =>
    obtain ⟨sz, lo, hi⟩ := t
    rcases utf8Lead_size p0 sz lo hi hl with rfl | rfl | rfl
    · rcases rest with _ | ⟨b1, r1⟩
      · left; simp [runeWidth, hl]
      · by_cases hb : b1 < lo ∨ hi < b1
        · left; simp [runeWidth, hl, hb]
        · right; left
          exact ⟨lo, hi, b1, r1, rfl, rfl, hb, by simp [runeWidth, hl, hb]⟩
    · rcases rest with _ | ⟨b1, _ | ⟨b2, r2⟩⟩
      · left; simp [runeWidth, hl]
      · left; simp [runeWidth, hl]
      · by_cases hb : b1 < lo ∨ hi < b1
        · left; simp [runeWidth, hl, hb]
        · cases h2 : isCont b2 with
          | false => left; simp [runeWidth, hl, hb, h2]
          | true =>
            right; right; left
            exact ⟨lo, hi, b1, b2, r2, rfl, rfl, hb, h2, by simp [runeWidth, hl, hb, h2]⟩
    · rcases rest with _ | ⟨b1, _ | ⟨b2, _ | ⟨b3, r3⟩⟩⟩
      · left; simp [runeWidth, hl]
      · left; simp [runeWidth, hl]
      · left; simp [runeWidth, hl]
      · by_cases hb : b1 < lo ∨ hi < b1
        · left; simp [runeWidth, hl, hb]
        · cases h2 : isCont b2 with
          | false => left; simp [runeWidth, hl, hb, h2]
          | true =>
            cases h3 : isCont b3 with
            | false => left; simp [runeWidth, hl, hb, h2, h3]
            | true =>
              right; right; right
              exact ⟨lo, hi, b1, b2, b3, r3, rfl, rfl, hb, h2, h3,
                by simp [runeWidth, hl, hb, h2, h3]⟩

/-- The first sequence is within the text. -/
theorem runeWidth_le (p0 : UInt8) (rest : GoString) :
    runeWidth (p0 :: rest) ≤ (p0 :: rest).length := by
  rcases runeWidth_cases p0 rest with h | ⟨_, _, _, _, _, rfl, _, h⟩
    | ⟨_, _, _, _, _, _, rfl, _, _, h⟩ | ⟨_, _, _, _, _, _, _, rfl, _, _, _, h⟩
  all_goals
    rw [h]
    simp only [List.length_cons]
    omega

/-- A well-formed sequence of several bytes is read the same whatever follows
it. -/
theorem runeWidth_take (p0 : UInt8) (rest t : GoString) (h : 2 ≤ runeWidth (p0 :: rest)) :
    runeWidth ((p0 :: rest).take (runeWidth (p0 :: rest)) ++ t) = runeWidth (p0 :: rest) := by
  rcases runeWidth_cases p0 rest with h1 | ⟨lo, hi, b1, r1, hl, rfl, hb, h1⟩
    | ⟨lo, hi, b1, b2, r2, hl, rfl, hb, h2, h1⟩
    | ⟨lo, hi, b1, b2, b3, r3, hl, rfl, hb, h2, h3, h1⟩
  · omega
  · rw [h1]
    simp [runeWidth, hl, hb]
  · rw [h1]
    simp [runeWidth, hl, hb, h2]
  · rw [h1]
    simp [runeWidth, hl, hb, h2, h3]

/-- The value of a hexadecimal digit written by `hexDigit`. -/
theorem hexVal_hexDigit : ∀ k, k < 16 → hexVal (hexDigit k) = some k := by
  decide

/-- The UTF-8 encoding of an ASCII code point is the byte itself. -/
theorem encodeRune_ascii : ∀ n, n < 128 → encodeRune n = [UInt8.ofNat n] := by
  decide

/-- An ASCII byte has a code below 128. -/
theorem byte_toNat_lt_of_lt (c : UInt8) : c < 0x80 → c.toNat < 128 := by
  revert c
  apply forall_byte
  decide

/-- A byte is the byte of its code. -/
theorem ofNat_toNat (c : UInt8) : UInt8.ofNat c.toNat = c := by
  apply UInt8.toNat.inj
  exact UInt8.toNat_ofNat_of_lt (UInt8.toNat_lt c)

/-- The escape `\u00XX` of an ASCII byte is read back as the byte. -/
theorem decodeEscapeU_escapeU00 (c : UInt8) (hc : c < 0x80) (rest : GoString) :
    decodeEscapeU ([0x30, 0x30, hexDigit (c.toNat / 16), hexDigit (c.toNat % 16)] ++ rest)
      = .ok (c.toNat, rest) := by
  have hlt : c.toNat < 128 := byte_toNat_lt_of_lt c hc
  have h1 : hexVal (hexDigit (c.toNat / 16)) = some (c.toNat / 16) :=
    hexVal_hexDigit _ (by omega)
  have h2 : hexVal (hexDigit (c.toNat % 16)) = some (c.toNat % 16) :=
    hexVal_hexDigit _ (by omega)
  have h0 : hexVal 0x30 = some 0 := by decide
  have hv : ((0 * 16 + 0) * 16 + c.toNat / 16) * 16 + c.toNat % 16 = c.toNat := by omega
  simp only [decodeEscapeU, hexDigits, List.cons_append, List.nil_append, h0, h1, h2, hv]
  have ha : ¬ (0xD800 ≤ c.toNat) := by omega
  have hb : ¬ (0xDC00 ≤ c.toNat) := by omega
  simp [ha, hb]

/-- The bytes of the escapes that `encodeChars` writes. -/
theorem str_escapes :
    str "\\\"" = [0x5C, 0x22] ∧ str "\\\\" = [0x5C, 0x5C] ∧ str "\\b" = [0x5C, 0x62]
    ∧ str "\\f" = [0x5C, 0x66] ∧ str "\\n" = [0x5C, 0x6E] ∧ str "\\r" = [0x5C, 0x72]
    ∧ str "\\t" = [0x5C, 0x74] ∧ str "\\u00" = [0x5C, 0x75, 0x30, 0x30]
    ∧ str "\\u2028" = [0x5C, 0x75, 0x32, 0x30, 0x32, 0x38]
    ∧ str "\\u2029" = [0x5C, 0x75, 0x32, 0x30, 0x32, 0x39] := by
  decide

/-- A byte written as the escape of its code is an ASCII byte other than the
quote and the backslash. -/
theorem escaped_ascii (c : UInt8) :
    (c < 0x20 || c = 0x3C || c = 0x3E || c = 0x26) = true → c < 0x80 := by
  revert c
  apply forall_byte
  decide

/-- A byte that takes none of the escapes of the encoder is no control character. -/
theorem not_escaped_ge (c : UInt8) :
    ¬ ((c < 0x20 || c = 0x3C || c = 0x3E || c = 0x26) = true) → ¬ c < 0x20 := by
  revert c
  apply forall_byte
  decide

/-- A byte outside ASCII is no quote, no backslash and no control character. -/
theorem not_ascii_ne (c : UInt8) : ¬ c < 0x80 → ¬ c = 0x22 ∧ ¬ c = 0x5C ∧ ¬ c < 0x20 := by
  revert c
  apply forall_byte
  decide

/-- The sequences of U+2028 and U+2029 are three bytes wide. -/
theorem runeWidth_2028 (b : UInt8) (hb : b = 0xA8 ∨ b = 0xA9) (t : GoString) :
    runeWidth (0xE2 :: 0x80 :: b :: t) = 3 := by
  have h1 : utf8Lead 0xE2 = some (3, 0x80, 0xBF) := by decide
  rcases hb with rfl | rfl <;> simp [runeWidth, h1, isCont]

/-- The escapes of U+2028 and U+2029 are read back as their code points. -/
theorem decodeEscapeU_2028 (X : GoString) :
    decodeEscapeU (0x32 :: 0x30 :: 0x32 :: 0x38 :: X) = .ok (0x2028, X)
    ∧ decodeEscapeU (0x32 :: 0x30 :: 0x32 :: 0x39 :: X) = .ok (0x2029, X)
    ∧ encodeRune 0x2028 = [0xE2, 0x80, 0xA8] ∧ encodeRune 0x2029 = [0xE2, 0x80, 0xA9] := by
  have h0 : hexVal 0x30 = some 0 := by decide
  have h2 : hexVal 0x32 = some 2 := by decide
  have h8 : hexVal 0x38 = some 8 := by decide
  have h9 : hexVal 0x39 = some 9 := by decide
  refine ⟨?_, ?_, by decide, by decide⟩ <;>
    simp [decodeEscapeU, hexDigits, h0, h2, h8, h9]

/-- A string body written by `encodeChars` is read back by `decodeChars`, for
a string that is valid UTF-8. -/
theorem decodeChars_encodeChars (fuel : Nat) :
    ∀ (s rest : GoString) (fuel2 : Nat), s.length ≤ fuel → validUTF8 fuel s = true →
      (encodeChars fuel s).length + 1 ≤ fuel2 →
      decodeChars fuel2 (encodeChars fuel s ++ 0x22 :: rest) = .ok (s, rest) := by
  obtain ⟨e1, e2, e3, e4, e5, e6, e7, e8, e9, e10⟩ := str_escapes
  induction fuel with
  | zero =>
    intro s rest fuel2 hl hv hf
    have hs : s = [] := List.length_eq_zero.1 (Nat.le_zero.1 hl)
    subst hs
    obtain ⟨f, rfl⟩ : ∃ f, fuel2 = f + 1 := ⟨fuel2 - 1, by simp [encodeChars] at hf; omega⟩
    simp [encodeChars, decodeChars]
  | succ n ih =>
    intro s rest fuel2 hl hv hf
    cases s with
    | nil =>
      obtain ⟨f, rfl⟩ : ∃ f, fuel2 = f + 1 := ⟨fuel2 - 1, by simp [encodeChars] at hf; omega⟩
      simp [encodeChars, decodeChars]
    | cons c r =>
      have hlr : r.length ≤ n := by simpa using hl
      obtain ⟨f, rfl⟩ : ∃ f, fuel2 = f + 1 := ⟨fuel2 - 1, by omega⟩
      -- a one-letter escape
      have simple : ∀ (e b : UInt8), e ≠ 0x75 → simpleEscape e = some b → c = b →
          c < 0x80 →
          (encodeChars n r).length + 3 ≤ f + 1 →
          decodeChars (f + 1) (0x5C :: e :: (encodeChars n r ++ 0x22 :: rest))
            = .ok (c :: r, rest) := by
        intro e b he hs hcb hc hf2
        have hv2 : validUTF8 n r = true := by
          simpa [validUTF8, hc] using hv
        obtain ⟨g, rfl⟩ : ∃ g, f = g + 1 := ⟨f - 1, by omega⟩
        have := ih r rest (g + 1) hlr hv2 (by omega)
        simp [decodeChars, he, hs, this, Except.map, hcb]
      by_cases h1 : c = 0x22
      · subst h1
        simp only [encodeChars, e1, if_true, List.cons_append, List.nil_append] at hf ⊢
        exact simple 0x22 0x22 (by decide) (by decide) rfl (by decide)
          (by simp only [List.length_cons] at hf; omega)
      by_cases h2 : c = 0x5C
      · subst h2
        simp only [encodeChars, e2, List.cons_append, List.nil_append] at hf ⊢
        simp only [show ((0x5C : UInt8) = 0x22) = False by simp, if_false, if_true] at hf ⊢
        exact simple 0x5C 0x5C (by decide) (by decide) rfl (by decide)
          (by simp only [List.cons_append, List.nil_append, List.length_cons] at hf; omega)
      by_cases h3 : c = 0x08
      · subst h3
        simp [encodeChars, e3] at hf ⊢
        exact simple 0x62 0x08 (by decide) (by decide) rfl (by decide) (by omega)
      by_cases h4 : c = 0x0C
      · subst h4
        simp [encodeChars, e4] at hf ⊢
        exact simple 0x66 0x0C (by decide) (by decide) rfl (by decide) (by omega)
      by_cases h5 : c = 0x0A
      · subst h5
        simp [encodeChars, e5] at hf ⊢
        exact simple 0x6E 0x0A (by decide) (by decide) rfl (by decide) (by omega)
      by_cases h6 : c = 0x0D
      · subst h6
        simp [encodeChars, e6] at hf ⊢
        exact simple 0x72 0x0D (by decide) (by decide) rfl (by decide) (by omega)
      by_cases h7 : c = 0x09
      · subst h7
        simp [encodeChars, e7] at hf ⊢
        exact simple 0x74 0x09 (by decide) (by decide) rfl (by decide) (by omega)
      by_cases h8 : (c < 0x20 || c = 0x3C || c = 0x3E || c = 0x26) = true
      · -- the escape of a control or HTML character
        have hc : c < 0x80 := escaped_ascii c h8
        have hv2 : validUTF8 n r = true := by
          simpa [validUTF8, hc] using hv
        have henc : encodeChars (n + 1) (c :: r)
            = [0x5C, 0x75, 0x30, 0x30, hexDigit (c.toNat / 16), hexDigit (c.toNat % 16)]
              ++ encodeChars n r := by
          simp only [encodeChars, if_neg h1, if_neg h2, if_neg h3, if_neg h4, if_neg h5, if_neg h6,
            if_neg h7, if_pos h8, escapeU00, e8, List.cons_append, List.nil_append]
        rw [henc] at hf ⊢
        obtain ⟨g, rfl⟩ : ∃ g, f = g + 1 := ⟨f - 1, by simp at hf; omega⟩
        have hih := ih r rest (g + 1) hlr hv2 (by simp at hf; omega)
        have hu := decodeEscapeU_escapeU00 c hc (encodeChars n r ++ 0x22 :: rest)
        have hr : encodeRune c.toNat = [c] := by
          rw [encodeRune_ascii _ (byte_toNat_lt_of_lt c hc), ofNat_toNat]
        simp only [List.cons_append, List.nil_append] at hu ⊢
        simp [decodeChars, hu, hih, Except.map, hr]
      have h20 : ¬ c < 0x20 := not_escaped_ge c h8
      by_cases h9 : c < 0x80
      · -- an ASCII byte written as it is
        have hv2 : validUTF8 n r = true := by
          simpa [validUTF8, h9] using hv
        have henc : encodeChars (n + 1) (c :: r) = c :: encodeChars n r := by
          simp only [encodeChars, if_neg h1, if_neg h2, if_neg h3, if_neg h4, if_neg h5,
            if_neg h6, if_neg h7, if_neg h8, if_pos h9]
        rw [henc] at hf ⊢
        obtain ⟨g, rfl⟩ : ∃ g, f = g + 1 := ⟨f - 1, by simp at hf; omega⟩
        have hih := ih r rest (g + 1) hlr hv2 (by simp at hf; omega)
        show decodeChars (g + 1 + 1) (c :: (encodeChars n r ++ 0x22 :: rest)) = _
        simp only [decodeChars, if_neg h1, if_neg h2, if_neg h20, if_pos h9, hih]
        rfl
      -- a sequence of several bytes
      have hw : 2 ≤ runeWidth (c :: r) := by
        have := hv
        simp only [validUTF8, if_neg h9, Bool.and_eq_true, decide_eq_true_eq] at this
        exact this.1
      have hvd : validUTF8 n ((c :: r).drop (runeWidth (c :: r))) = true := by
        have := hv
        simp only [validUTF8, if_neg h9, Bool.and_eq_true, decide_eq_true_eq] at this
        exact this.2
      have hw1 : ¬ runeWidth (c :: r) ≤ 1 := by omega
      have hwl : runeWidth (c :: r) ≤ (c :: r).length := runeWidth_le c r
      obtain ⟨-, -, r2028, r2029⟩ := decodeEscapeU_2028 []
      by_cases hA : (c :: r).take 3 = [0xE2, 0x80, 0xA8]
      · have hcr : c :: r = 0xE2 :: 0x80 :: 0xA8 :: r.drop 2 := by
          have := List.take_append_drop 3 (c :: r)
          rw [hA] at this
          simpa using this.symm
        have hw3 : runeWidth (c :: r) = 3 := by
          rw [hcr]
          exact runeWidth_2028 0xA8 (Or.inl rfl) _
        have hv2 : validUTF8 n (r.drop 2) = true := by
          rw [hw3] at hvd
          simpa using hvd
        have henc : encodeChars (n + 1) (c :: r)
            = [0x5C, 0x75, 0x32, 0x30, 0x32, 0x38] ++ encodeChars n (r.drop 2) := by
          simp only [encodeChars, if_neg h1, if_neg h2, if_neg h3, if_neg h4, if_neg h5,
            if_neg h6, if_neg h7, if_neg h8, if_neg h9, if_neg hw1, if_pos hA, e9]
        rw [henc] at hf ⊢
        obtain ⟨g, rfl⟩ : ∃ g, f = g + 1 := ⟨f - 1, by simp at hf; omega⟩
        have hih := ih (r.drop 2) rest (g + 1) (by simp; omega) hv2 (by simp at hf; omega)
        have hu := (decodeEscapeU_2028 (encodeChars n (r.drop 2) ++ 0x22 :: rest)).1
        show decodeChars (g + 1 + 1) (0x5C :: 0x75 :: 0x32 :: 0x30 :: 0x32 :: 0x38 ::
          (encodeChars n (r.drop 2) ++ 0x22 :: rest)) = _
        simp only [decodeChars, hu, hih, r2028]
        rw [hcr]
        simp [Except.map]
      by_cases hB : (c :: r).take 3 = [0xE2, 0x80, 0xA9]
      · have hcr : c :: r = 0xE2 :: 0x80 :: 0xA9 :: r.drop 2 := by
          have := List.take_append_drop 3 (c :: r)
          rw [hB] at this
          simpa using this.symm
        have hw3 : runeWidth (c :: r) = 3 := by
          rw [hcr]
          exact runeWidth_2028 0xA9 (Or.inr rfl) _
        have hv2 : validUTF8 n (r.drop 2) = true := by
          rw [hw3] at hvd
          simpa using hvd
        have henc : encodeChars (n + 1) (c :: r)
            = [0x5C, 0x75, 0x32, 0x30, 0x32, 0x39] ++ encodeChars n (r.drop 2) := by
          simp only [encodeChars, if_neg h1, if_neg h2, if_neg h3, if_neg h4, if_neg h5,
            if_neg h6, if_neg h7, if_neg h8, if_neg h9, if_neg hw1, if_neg hA, if_pos hB, e10]
        rw [henc] at hf ⊢
        obtain ⟨g, rfl⟩ : ∃ g, f = g + 1 := ⟨f - 1, by simp at hf; omega⟩
        have hih := ih (r.drop 2) rest (g + 1) (by simp; omega) hv2 (by simp at hf; omega)
        have hu := (decodeEscapeU_2028 (encodeChars n (r.drop 2) ++ 0x22 :: rest)).2.1
        show decodeChars (g + 1 + 1) (0x5C :: 0x75 :: 0x32 :: 0x30 :: 0x32 :: 0x39 ::
          (encodeChars n (r.drop 2) ++ 0x22 :: rest)) = _
        simp only [decodeChars, hu, hih, r2029]
        rw [hcr]
        simp [Except.map]
      -- any other sequence is written as it is
      obtain ⟨hn22, hn5C, _⟩ := not_ascii_ne c h9
      have henc : encodeChars (n + 1) (c :: r)
          = (c :: r).take (runeWidth (c :: r))
            ++ encodeChars n ((c :: r).drop (runeWidth (c :: r))) := by
        simp only [encodeChars, if_neg h1, if_neg h2, if_neg h3, if_neg h4, if_neg h5,
          if_neg h6, if_neg h7, if_neg h8, if_neg h9, if_neg hw1, if_neg hA, if_neg hB]
      rw [henc] at hf ⊢
      have hTl : ((c :: r).take (runeWidth (c :: r))).length = runeWidth (c :: r) := by
        rw [List.length_take]
        omega
      have hih := ih ((c :: r).drop (runeWidth (c :: r))) rest f
        (by rw [List.length_drop]; simp only [List.length_cons] at hwl ⊢; omega) hvd
        (by rw [List.length_append, hTl] at hf; omega)
      obtain ⟨k, hk⟩ : ∃ k, runeWidth (c :: r) = k + 1 := ⟨runeWidth (c :: r) - 1, by omega⟩
      have hcons : (c :: r).take (runeWidth (c :: r))
            ++ encodeChars n ((c :: r).drop (runeWidth (c :: r))) ++ 0x22 :: rest
          = c :: (r.take k ++ (encodeChars n ((c :: r).drop (runeWidth (c :: r)))
              ++ 0x22 :: rest)) := by
        rw [hk]
        simp
      have hrw := runeWidth_take c r
        (encodeChars n ((c :: r).drop (runeWidth (c :: r))) ++ 0x22 :: rest) hw
      rw [List.append_assoc] at hcons
      rw [hcons] at hrw
      rw [List.append_assoc, hcons]
      have hw1' : ¬ runeWidth (c :: (r.take k ++ (encodeChars n
          ((c :: r).drop (runeWidth (c :: r))) ++ 0x22 :: rest))) ≤ 1 := by
        rw [hrw]
        exact hw1
      simp only [decodeChars, if_neg hn22, if_neg hn5C, if_neg h20, if_neg h9, if_neg hw1', hrw,
        if_neg hw1]
      rw [← hcons, List.drop_left' hTl, List.take_left' hTl, hih]
      simp [Except.map]

/-! ### Numbers -/

/-- A byte that ends a value is no part of a number. -/
theorem terminated_head (rest : GoString) (h : terminated rest = true) :
    ∃ c r, rest = c :: r ∧ isDigit c = false ∧ c ≠ 0x2E ∧ c ≠ 0x65 ∧ c ≠ 0x45 := by
  cases rest with
  | nil => simp [terminated] at h
  | cons c r =>
    refine ⟨c, r, rfl, ?_⟩
    simp only [terminated, Bool.or_eq_true, decide_eq_true_eq] at h
    rcases h with ((h | h) | h) | h <;> subst h <;> decide

/-- The digits at the head of a text are read up to the first byte that is no
digit. -/
theorem takeDigits_append (ds rest : GoString) (hd : ds.all isDigit = true)
    (hr : ∀ c r, rest = c :: r → isDigit c = false) :
    takeDigits (ds ++ rest) = (ds, rest) := by
  induction ds with
  | nil =>
    cases rest with
    | nil => rfl
    | cons c r => simp [takeDigits, hr c r rfl]
  | cons d ds ih =>
    simp only [List.all_cons, Bool.and_eq_true] at hd
    simp [takeDigits, hd.1, ih hd.2]

/-- Digits, at least one, are read up to the first byte that is no digit. -/
theorem needDigits_append (context : String) (l rest : GoString) (hne : l ≠ [])
    (hd : l.all isDigit = true)
    (hr : ∀ c r, rest = c :: r → isDigit c = false) :
    needDigits context (l ++ rest) = .ok (l, rest) := by
  cases l with
  | nil => exact absurd rfl hne
  | cons d ds =>
    have h1 : isDigit d = true := by
      simp only [List.all_cons, Bool.and_eq_true] at hd
      exact hd.1
    have := takeDigits_append (d :: ds) rest hd hr
    simp only [List.cons_append] at this ⊢
    simp [needDigits, h1, this]

/-- The number written by digits followed by one more digit. -/
theorem digitsToNat_append (l : GoString) (c : UInt8) :
    digitsToNat (l ++ [c]) = 10 * digitsToNat l + (c.toNat - 0x30) := by
  simp [digitsToNat, List.foldl_append]

/-- The number written by digits, from the least significant digit. -/
theorem digitsToNat_reverse (l : GoString) : digitsToNat l.reverse = valRev l := by
  induction l with
  | nil => rfl
  | cons c r ih =>
    rw [List.reverse_cons, digitsToNat_append, ih, valRev]
    omega

/-- The byte of a digit is a digit with that value. -/
theorem digit_byte : ∀ k, k < 10 →
    (UInt8.ofNat (0x30 + k)).toNat - 0x30 = k ∧ isDigit (UInt8.ofNat (0x30 + k)) = true
      ∧ UInt8.ofNat (0x30 + k) ≠ 0x2D := by
  decide

/-- The digits of a number are digits, and they write the number. -/
theorem valRev_natDigitsRev (fuel : Nat) : ∀ n, n < fuel →
    valRev (natDigitsRev fuel n) = n ∧ (natDigitsRev fuel n).all isDigit = true
      ∧ natDigitsRev fuel n ≠ [] := by
  induction fuel with
  | zero => intro n h; omega
  | succ f ih =>
    intro n h
    by_cases h10 : n < 10
    · obtain ⟨h1, h2, _⟩ := digit_byte n h10
      simp [natDigitsRev, h10, valRev, h1, h2]
    · obtain ⟨h1, h2, _⟩ := digit_byte (n % 10) (Nat.mod_lt _ (by omega))
      obtain ⟨i1, i2, _⟩ := ih (n / 10) (by omega)
      simp only [natDigitsRev, if_neg h10, valRev, h1, i1, List.all_cons, h2, i2]
      refine ⟨by omega, by simp, by simp⟩

/-- The digits written for a number are read back as the number. -/
theorem natToDigits_spec (n : Nat) :
    digitsToNat (natToDigits n) = n ∧ (natToDigits n).all isDigit = true
      ∧ ∃ d ds, natToDigits n = d :: ds := by
  obtain ⟨h1, h2, h3⟩ := valRev_natDigitsRev (n + 1) n (by omega)
  refine ⟨?_, ?_, ?_⟩
  · rw [natToDigits, digitsToNat_reverse, h1]
  · rw [natToDigits, List.all_reverse, h2]
  · cases h : natToDigits n with
    | nil =>
      rw [natToDigits, List.reverse_eq_nil_iff] at h
      exact absurd h h3
    | cons d ds => exact ⟨d, ds, rfl⟩

/-- Leading zeros are dropped. -/
theorem dropZeros_replicate (k : Nat) (l : GoString) :
    dropZeros (List.replicate k 0x30 ++ l) = dropZeros l := by
  induction k with
  | zero => rfl
  | succ k ih => simp [List.replicate_succ, dropZeros, ih]

/-- Digits that start with no zero are kept. -/
theorem dropZeros_cons (d : UInt8) (l : GoString) (h : d ≠ 0x30) :
    dropZeros (d :: l) = d :: l := by
  simp [dropZeros, h]

/-- A decimal written with zeros before and after its digits has the digits
and the exponent of the decimal without them. -/
theorem normalizeDecimal_pad (k j : Nat) (d : UInt8) (ds : GoString) (x : Int)
    (hd : d ≠ 0x30) (hl : (d :: ds).getLast? ≠ some 0x30) :
    normalizeDecimal (List.replicate k 0x30 ++ (d :: ds) ++ List.replicate j 0x30) x
      = (d :: ds, x + (j : Int)) := by
  have hrev : ∃ e es, (d :: ds).reverse = e :: es ∧ e ≠ 0x30 := by
    cases h : (d :: ds).reverse with
    | nil => simp at h
    | cons e es =>
      refine ⟨e, es, rfl, ?_⟩
      have : (d :: ds).getLast? = some e := by
        rw [List.getLast?_eq_head?_reverse, h]
        rfl
      rw [this] at hl
      intro he
      exact hl (by rw [he])
  obtain ⟨e, es, hr, he⟩ := hrev
  have h1 : dropZeros (List.replicate k 0x30 ++ (d :: ds) ++ List.replicate j 0x30)
      = d :: ds ++ List.replicate j 0x30 := by
    rw [List.append_assoc, dropZeros_replicate]
    exact dropZeros_cons d _ hd
  have h2 : dropZeros (d :: ds ++ List.replicate j 0x30).reverse = (d :: ds).reverse := by
    rw [List.reverse_append, List.reverse_replicate, dropZeros_replicate, hr]
    exact dropZeros_cons e es he
  unfold normalizeDecimal
  simp only [h1, h2, List.reverse_reverse, List.length_append, List.length_reverse,
    List.length_replicate]
  congr 1
  congr 1
  omega

/-- An integer part that starts with no zero is read up to the first byte that
is no digit. -/
theorem scanInteger_digits (d : UInt8) (ds rest : GoString) (hd : (d :: ds).all isDigit = true)
    (h0 : d ≠ 0x30) (hr : ∀ c r, rest = c :: r → isDigit c = false) :
    scanInteger (d :: ds ++ rest) = .ok (d :: ds, rest) := by
  have h := needDigits_append "in numeric literal" (d :: ds) rest (by simp) hd hr
  have hh : ¬ ((d :: ds ++ rest).head? = some 0x30) := by
    simp [h0]
  simp only [scanInteger, h, if_neg hh]

/-- The integer part `0` ends after the zero. -/
theorem scanInteger_zero (rest : GoString) :
    scanInteger (0x30 :: rest) = .ok ([0x30], rest) := by
  have h1 : isDigit 0x30 = true := by decide
  simp [scanInteger, needDigits, h1]

/-- A decimal point and digits are read as the fraction. -/
theorem scanFraction_point (l rest : GoString) (hne : l ≠ []) (hd : l.all isDigit = true)
    (hr : ∀ c r, rest = c :: r → isDigit c = false) :
    scanFraction (0x2E :: (l ++ rest)) = .ok (l, rest) := by
  simp [scanFraction, needDigits_append _ l rest hne hd hr]

/-- Without a decimal point there is no fraction. -/
theorem scanFraction_none (c : UInt8) (r : GoString) (hc : c ≠ 0x2E) :
    scanFraction (c :: r) = .ok ([], c :: r) := by
  simp [scanFraction, hc]

/-- Without `e` there is no exponent. -/
theorem scanExponent_none (c : UInt8) (r : GoString) (h1 : c ≠ 0x65) (h2 : c ≠ 0x45) :
    scanExponent (c :: r) = .ok (0, c :: r) := by
  simp [scanExponent, h1, h2]

/-- An exponent written with its sign is read back. -/
theorem scanExponent_signed (x : Int) (rest : GoString)
    (hr : ∀ c r, rest = c :: r → isDigit c = false) :
    scanExponent (0x65 :: (if x < 0 then 0x2D else 0x2B) :: (natToDigits x.natAbs ++ rest))
      = .ok (x, rest) := by
  obtain ⟨hv, hall, d, ds, hds⟩ := natToDigits_spec x.natAbs
  have hn := needDigits_append "in exponent of numeric literal" (natToDigits x.natAbs) rest
    (by rw [hds]; simp) hall hr
  by_cases hx : x < 0
  · simp only [scanExponent, if_pos hx]
    have := abs_of_neg hx
    simp [hn, hv]
    omega
  · simp only [scanExponent, if_neg hx]
    have := abs_of_nonneg (not_lt.1 hx)
    simp [hn, hv]
    omega

/-- The format `e` is read back. -/
theorem scansTo_e (d : UInt8) (ds : GoString) (x : Int) (T : GoString)
    (hdig : (d :: ds).all isDigit = true) (hd : d ≠ 0x30)
    (hl : (d :: ds).getLast? ≠ some 0x30)
    (hTd : ∀ c r, T = c :: r → isDigit c = false) :
    ScansTo (d :: (if ds.isEmpty then [] else 0x2E :: ds)
        ++ 0x65 :: (if x < 0 then 0x2D else 0x2B) :: natToDigits x.natAbs ++ T)
      T (d :: ds) (x - ((ds.length : Nat) : Int)) := by
  have hx := scanExponent_signed x T hTd
  have hd1 : [d].all isDigit = true := by
    simp only [List.all_cons, Bool.and_eq_true] at hdig
    simp [hdig.1]
  have hds : ds.all isDigit = true := by
    simp only [List.all_cons, Bool.and_eq_true] at hdig
    exact hdig.2
  have hpad := normalizeDecimal_pad 0 0 d ds (x - ((ds.length : Nat) : Int)) hd hl
  simp only [List.replicate_zero, List.nil_append, List.append_nil, Nat.cast_zero,
    add_zero] at hpad
  generalize hE : (0x65 :: (if x < 0 then (0x2D : UInt8) else 0x2B)
    :: (natToDigits x.natAbs ++ T)) = E at hx
  have hEd : ∀ c r, E = c :: r → isDigit c = false := by
    intro c r h
    rw [← hE] at h
    cases h
    decide
  cases ds with
  | nil =>
    refine ⟨[d], E, [], E, x, ?_, ?_, hx, ?_⟩
    · have := scanInteger_digits d [] E hd1 hd hEd
      simpa [← hE] using this
    · rw [← hE]
      exact scanFraction_none _ _ (by decide)
    · simpa using hpad
  | cons e es =>
    refine ⟨[d], 0x2E :: (e :: es ++ E), e :: es, E, x, ?_, ?_, hx, ?_⟩
    · have := scanInteger_digits d [] (0x2E :: (e :: es ++ E)) hd1 hd
        (by intro c r h; cases h; decide)
      simpa [← hE] using this
    · exact scanFraction_point (e :: es) E (by simp) hds hEd
    · simpa using hpad

/-- The format `f` of a value below one is read back. -/
theorem scansTo_small (d : UInt8) (ds : GoString) (k : Nat) (T : GoString)
    (hdig : (d :: ds).all isDigit = true) (hd : d ≠ 0x30)
    (hl : (d :: ds).getLast? ≠ some 0x30)
    (hT : ∃ c r, T = c :: r ∧ isDigit c = false ∧ c ≠ 0x2E ∧ c ≠ 0x65 ∧ c ≠ 0x45) :
    ScansTo (0x30 :: 0x2E :: (List.replicate k 0x30 ++ d :: ds) ++ T)
      T (d :: ds) (-((k + (d :: ds).length : Nat) : Int)) := by
  obtain ⟨c, r, rfl, hc1, hc2, hc3, hc4⟩ := hT
  have hz : (List.replicate k (0x30 : UInt8) ++ d :: ds).all isDigit = true := by
    rw [List.all_append, hdig]
    simp
    right
    decide
  refine ⟨[0x30], 0x2E :: (List.replicate k 0x30 ++ d :: ds ++ c :: r),
    List.replicate k 0x30 ++ d :: ds, c :: r, 0, ?_, ?_, ?_, ?_⟩
  · have := scanInteger_zero (0x2E :: (List.replicate k 0x30 ++ d :: ds ++ c :: r))
    simpa using this
  · exact scanFraction_point _ _ (by simp) hz (by intro c' r' h; cases h; exact hc1)
  · exact scanExponent_none c r hc3 hc4
  · have := normalizeDecimal_pad (k + 1) 0 d ds
      (0 - (((List.replicate k (0x30 : UInt8) ++ d :: ds).length : Nat) : Int)) hd hl
    simp only [List.replicate_succ, List.replicate_zero, List.append_nil] at this
    simp only [List.singleton_append, List.cons_append, List.nil_append] at this ⊢
    rw [this]
    congr 1
    simp

/-- The format `f` of an integer value is read back. -/
theorem scansTo_integer (d : UInt8) (ds : GoString) (j : Nat) (T : GoString)
    (hdig : (d :: ds).all isDigit = true) (hd : d ≠ 0x30)
    (hl : (d :: ds).getLast? ≠ some 0x30)
    (hT : ∃ c r, T = c :: r ∧ isDigit c = false ∧ c ≠ 0x2E ∧ c ≠ 0x65 ∧ c ≠ 0x45) :
    ScansTo (d :: ds ++ List.replicate j 0x30 ++ T) T (d :: ds) (j : Int) := by
  obtain ⟨c, r, rfl, hc1, hc2, hc3, hc4⟩ := hT
  have hz : (d :: (ds ++ List.replicate j (0x30 : UInt8))).all isDigit = true := by
    rw [← List.cons_append, List.all_append, hdig]
    simp
    right
    decide
  refine ⟨d :: (ds ++ List.replicate j 0x30), c :: r, [], c :: r, 0, ?_, ?_, ?_, ?_⟩
  · have := scanInteger_digits d (ds ++ List.replicate j 0x30) (c :: r) hz hd
      (by intro c' r' h; cases h; exact hc1)
    simpa using this
  · exact scanFraction_none c r hc2
  · exact scanExponent_none c r hc3 hc4
  · have := normalizeDecimal_pad 0 j d ds 0 hd hl
    simp at this ⊢
    exact this

/-- The format `f` with the decimal point inside the digits is read back. -/
theorem scansTo_point (d : UInt8) (ds : GoString) (p : Nat) (T : GoString)
    (hdig : (d :: ds).all isDigit = true) (hd : d ≠ 0x30)
    (hl : (d :: ds).getLast? ≠ some 0x30) (hp0 : 0 < p) (hp : p < (d :: ds).length)
    (hT : ∃ c r, T = c :: r ∧ isDigit c = false ∧ c ≠ 0x2E ∧ c ≠ 0x65 ∧ c ≠ 0x45) :
    ScansTo ((d :: ds).take p ++ 0x2E :: (d :: ds).drop p ++ T) T (d :: ds)
      (-(((d :: ds).length - p : Nat) : Int)) := by
  obtain ⟨c, r, rfl, hc1, hc2, hc3, hc4⟩ := hT
  obtain ⟨q, rfl⟩ : ∃ q, p = q + 1 := ⟨p - 1, by omega⟩
  have hsplit : d :: ds = d :: ds.take q ++ (d :: ds).drop (q + 1) := by
    have := (List.take_append_drop (q + 1) (d :: ds)).symm
    simp at this ⊢
  have hall : (d :: ds.take q).all isDigit = true
      ∧ ((d :: ds).drop (q + 1)).all isDigit = true := by
    rw [hsplit, List.all_append, Bool.and_eq_true] at hdig
    exact hdig
  have hne : (d :: ds).drop (q + 1) ≠ [] := by
    intro h
    have := congrArg List.length h
    rw [List.length_drop] at this
    simp at this hp
    omega
  refine ⟨d :: ds.take q, 0x2E :: ((d :: ds).drop (q + 1) ++ c :: r), (d :: ds).drop (q + 1),
    c :: r, 0, ?_, ?_, ?_, ?_⟩
  · have := scanInteger_digits d (ds.take q) (0x2E :: ((d :: ds).drop (q + 1) ++ c :: r))
      hall.1 hd (by intro c' r' h; cases h; decide)
    simpa using this
  · exact scanFraction_point _ _ hne hall.2 (by intro c' r' h; cases h; exact hc1)
  · exact scanExponent_none c r hc3 hc4
  · have := normalizeDecimal_pad 0 0 d ds
      (0 - ((((d :: ds).drop (q + 1)).length : Nat) : Int)) hd hl
    simp only [List.replicate_zero, List.nil_append, List.append_nil] at this
    rw [← hsplit, this]
    congr 1
    simp

/-- The decimal written by `formatDecimal` is read back as a decimal with the
same digits and exponent. -/
theorem scansTo_formatDecimal (d : UInt8) (ds : GoString) (exp : Int) (T : GoString)
    (hdig : (d :: ds).all isDigit = true) (hd : d ≠ 0x30)
    (hl : (d :: ds).getLast? ≠ some 0x30) (hT : terminated T = true) :
    ScansTo (formatDecimal d ds exp ++ T) T (d :: ds) exp := by
  have hT2 := terminated_head T hT
  have hTd : ∀ c r, T = c :: r → isDigit c = false := by
    obtain ⟨c, r, rfl, hc1, _⟩ := hT2
    intro c' r' h
    cases h
    exact hc1
  simp only [formatDecimal]
  by_cases h1 : (decide ((((d :: ds).length : Nat) : Int) + exp ≤ -6)
      || decide (22 ≤ (((d :: ds).length : Nat) : Int) + exp)) = true
  · rw [if_pos h1]
    have := scansTo_e d ds ((((d :: ds).length : Nat) : Int) + exp - 1) T hdig hd hl hTd
    have he : (((d :: ds).length : Nat) : Int) + exp - 1 - ((ds.length : Nat) : Int) = exp := by
      simp
      omega
    rw [he] at this
    simpa using this
  rw [if_neg h1]
  simp only [Bool.or_eq_true, decide_eq_true_eq, not_or, not_le] at h1
  by_cases h2 : (((d :: ds).length : Nat) : Int) + exp ≤ 0
  · rw [if_pos h2]
    have := scansTo_small d ds (-((((d :: ds).length : Nat) : Int) + exp)).toNat T hdig hd hl hT2
    have he : -((((-((((d :: ds).length : Nat) : Int) + exp)).toNat + (d :: ds).length : Nat)) : Int)
        = exp := by
      rw [Nat.cast_add, Int.toNat_of_nonneg (by omega)]
      omega
    rw [he] at this
    simpa using this
  rw [if_neg h2]
  by_cases h3 : (((d :: ds).length : Nat) : Int) ≤ (((d :: ds).length : Nat) : Int) + exp
  · rw [if_pos h3]
    have := scansTo_integer d ds
      ((((d :: ds).length : Nat) : Int) + exp - (((d :: ds).length : Nat) : Int)).toNat T
      hdig hd hl hT2
    have he : (((((d :: ds).length : Nat) : Int) + exp
        - (((d :: ds).length : Nat) : Int)).toNat : Int) = exp := by
      rw [Int.toNat_of_nonneg (by omega)]
      omega
    rw [he] at this
    simpa using this
  rw [if_neg h3]
  have hp : ((((d :: ds).length : Nat) : Int) + exp).toNat < (d :: ds).length := by
    omega
  have := scansTo_point d ds ((((d :: ds).length : Nat) : Int) + exp).toNat T hdig hd hl
    (by omega) hp hT2
  have he : -((((d :: ds).length - ((((d :: ds).length : Nat) : Int) + exp).toNat : Nat)) : Int)
      = exp := by
    omega
  rw [he] at this
  simpa using this

/-- An integer part starts with a digit. -/
theorem scanInteger_head (s : GoString) (r : GoString × GoString)
    (h : scanInteger s = .ok r) : s.head? ≠ some 0x2D := by
  cases s with
  | nil => simp
  | cons c t =>
    intro hc
    have hc' : c = 0x2D := by simpa using hc
    subst hc'
    have hd : isDigit 0x2D = false := by decide
    simp [scanInteger, needDigits, hd] at h

/-- The float that `strconv.ParseFloat` returns depends on the decimal
without its leading and trailing zeros only. -/
theorem ofDecimal_congr (neg : Bool) (a b : GoString) (x y : Int)
    (h : normalizeDecimal a x = normalizeDecimal b y) :
    Float64.ofDecimal neg a x = Float64.ofDecimal neg b y := by
  simp only [Float64.ofDecimal, h]

/-- A number written by `formatFloat` is read back by `scanNumber`. -/
theorem scanNumber_formatFloat (n : Float64) (T : GoString) (hwf : n.wellFormed = true)
    (hT : terminated T = true) :
    scanNumber (formatFloat n ++ T) = .ok (.number n, none, T) := by
  simp only [Float64.wellFormed, Bool.and_eq_true, bne_iff_ne, ne_eq,
    decide_eq_true_eq] at hwf
  obtain ⟨⟨⟨hdig, hhead⟩, hlast⟩, hcanon⟩ := hwf
  -- the text after the sign, and what its parts are
  have key : ∀ body : GoString,
      (∃ int s2 frac s4 x, scanInteger (body ++ T) = .ok (int, s2)
        ∧ scanFraction s2 = .ok (frac, s4) ∧ scanExponent s4 = .ok (x, T)
        ∧ Float64.ofDecimal n.neg (int ++ frac) (x - ((frac.length : Nat) : Int)) = some n) →
      scanNumber ((if n.neg then [0x2D] else []) ++ body ++ T) = .ok (.number n, none, T) := by
    intro body ⟨int, s2, frac, s4, x, h1, h2, h3, h4⟩
    have hb := scanInteger_head _ _ h1
    cases hneg : n.neg with
    | true =>
      rw [hneg] at h4
      simp only [if_true, List.cons_append, List.nil_append, scanNumber, List.head?_cons,
        List.drop_succ_cons, List.drop_zero, h1, h2, h3, decide_True, h4]
    | false =>
      rw [hneg] at h4
      have hh : ¬ ((body ++ T).head? = some 0x2D) := hb
      simp only [Bool.false_eq_true, if_false, List.nil_append, scanNumber, if_neg hh, h1, h2,
        h3, decide_eq_false hh, h4]
  cases hds : n.digits with
  | nil =>
    rw [hds] at hcanon
    have h := key [0x30] ⟨[0x30], T, [], T, 0, scanInteger_zero T, ?_, ?_, ?_⟩
    · simpa [formatFloat, hds] using h
    · obtain ⟨c, r, rfl, _, hc2, _, _⟩ := terminated_head T hT
      exact scanFraction_none c r hc2
    · obtain ⟨c, r, rfl, _, _, hc3, hc4⟩ := terminated_head T hT
      exact scanExponent_none c r hc3 hc4
    · rw [← hcanon]
      simp [Float64.ofDecimal, normalizeDecimal, dropZeros]
  | cons d ds =>
    rw [hds] at hdig hhead hlast hcanon
    have hd : d ≠ 0x30 := by
      intro h
      exact hhead (by simp [h])
    obtain ⟨int, s2, frac, s4, x, h1, h2, h3, h4⟩ :=
      scansTo_formatDecimal d ds n.exp T hdig hd hlast hT
    have h := key (formatDecimal d ds n.exp) ⟨int, s2, frac, s4, x, h1, h2, h3, ?_⟩
    · simpa [formatFloat, hds] using h
    · rw [← hcanon]
      apply ofDecimal_congr
      rw [h4]
      have := normalizeDecimal_pad 0 0 d ds n.exp hd hlast
      simpa using this.symm

/-! ### Values -/

/-- A byte that is no white space is not skipped. -/
theorem skipSpace_cons (c : UInt8) (r : GoString)
    (h : (c = 0x20 || c = 0x09 || c = 0x0D || c = 0x0A) = false) :
    skipSpace (c :: r) = c :: r := by
  simp only [skipSpace, h]
  rfl

/-- A byte that starts a value is no white space and closes nothing. -/
theorem valueStart_spec (c : UInt8) : valueStart c = true →
    (c = 0x20 || c = 0x09 || c = 0x0D || c = 0x0A) = false ∧ c ≠ 0x5D ∧ c ≠ 0x7D := by
  revert c
  apply forall_byte
  decide

/-- A sign or a digit starts a value, and the value is a number. -/
theorem digit_valueStart (c : UInt8) : (c = 0x2D ∨ isDigit c = true) →
    valueStart c = true ∧ c ≠ 0x7B ∧ c ≠ 0x5B ∧ c ≠ 0x22
      ∧ (c = 0x2D || isDigit c) = true := by
  revert c
  apply forall_byte
  decide

/-- A text that ends a value starts with a byte that is no sign and no digit. -/
theorem terminated_spec (T : GoString) (h : terminated T = true) :
    ∃ c r, T = c :: r ∧ (c = 0x2D ∨ isDigit c = true → False) := by
  cases T with
  | nil => simp [terminated] at h
  | cons c r =>
    refine ⟨c, r, rfl, ?_⟩
    simp only [terminated, Bool.or_eq_true, decide_eq_true_eq] at h
    rcases h with ((h | h) | h) | h <;> subst h <;> decide

/-- A number literal starts with a sign or a digit. -/
theorem scanNumber_head (s : GoString) (r : JSONValue × Option GoString × GoString)
    (h : scanNumber s = .ok r) : ∃ c t, s = c :: t ∧ (c = 0x2D ∨ isDigit c = true) := by
  cases s with
  | nil => simp [scanNumber, scanInteger, needDigits] at h
  | cons c t =>
    refine ⟨c, t, rfl, ?_⟩
    by_cases hc : c = 0x2D
    · exact Or.inl hc
    · right
      cases hd : isDigit c with
      | true => rfl
      | false =>
        simp [scanNumber, hc, scanInteger, needDigits, hd] at h

/-- A number is written with a sign or a digit first. -/
theorem formatFloat_head (n : Float64) (hwf : n.wellFormed = true) :
    ∃ c t, formatFloat n = c :: t ∧ (c = 0x2D ∨ isDigit c = true) := by
  have h := scanNumber_formatFloat n [0x20] hwf (by decide)
  obtain ⟨c, t, hct, hc⟩ := scanNumber_head _ _ h
  cases hf : formatFloat n with
  | nil =>
    rw [hf] at hct
    simp only [List.nil_append, List.cons.injEq] at hct
    obtain ⟨rfl, _⟩ := hct
    rcases hc with hc | hc
    · exact absurd hc (by decide)
    · exact absurd hc (by decide)
  | cons c' t' =>
    rw [hf] at hct
    simp only [List.cons_append, List.cons.injEq] at hct
    obtain ⟨rfl, _⟩ := hct
    exact ⟨c', t', rfl, hc⟩

/-- A value is written with a byte first that can start a value. -/
theorem encodeValue_head (v : JSONValue) (hwf : v.wellFormed = true) :
    ∃ c t, encodeValue v = c :: t ∧ valueStart c = true := by
  cases v with
  | null => exact ⟨0x6E, [0x75, 0x6C, 0x6C], by decide, by decide⟩
  | bool b =>
    cases b with
    | true => exact ⟨0x74, [0x72, 0x75, 0x65], by decide, by decide⟩
    | false => exact ⟨0x66, [0x61, 0x6C, 0x73, 0x65], by decide, by decide⟩
  | number n =>
    obtain ⟨c, t, h1, h2⟩ := formatFloat_head n (by simpa [JSONValue.wellFormed] using hwf)
    exact ⟨c, t, by simp [encodeValue, h1], (digit_valueStart c h2).1⟩
  | string s => exact ⟨0x22, _, by simp [encodeValue, encodeString]; rfl, by decide⟩
  | array items => exact ⟨0x5B, _, by simp [encodeValue]; rfl, by decide⟩
  | object members => exact ⟨0x7B, _, by simp [encodeValue]; rfl, by decide⟩

/-- The order of bytes is the order of their codes. -/
theorem byte_lt_iff (a b : UInt8) : a < b ↔ a.toNat < b.toNat := Iff.rfl

/-- No byte is below itself. -/
theorem byte_lt_irrefl (a : UInt8) : ¬ a < a := by
  rw [byte_lt_iff]
  omega

/-- The order of bytes is transitive. -/
theorem byte_lt_trans (a b c : UInt8) : a < b → b < c → a < c := by
  simp only [byte_lt_iff]
  omega

/-- The order of bytes is asymmetric. -/
theorem byte_lt_asymm (a b : UInt8) : a < b → ¬ b < a := by
  simp only [byte_lt_iff]
  omega

/-- No key is below itself. -/
theorem keyLess_irrefl (a : GoString) : keyLess a a = false := by
  induction a with
  | nil => rfl
  | cons x xs ih => simp [keyLess, ih]

/-- The order of keys is asymmetric. -/
theorem keyLess_asymm (a b : GoString) : keyLess a b = true → keyLess b a = false := by
  induction a generalizing b with
  | nil =>
    intro _
    cases b <;> rfl
  | cons x xs ih =>
    intro h
    cases b with
    | nil => simp [keyLess] at h
    | cons y ys =>
      simp only [keyLess, Bool.or_eq_true, decide_eq_true_eq, Bool.and_eq_true] at h
      simp only [keyLess, Bool.or_eq_false_iff, decide_eq_false_iff_not, Bool.and_eq_false_imp,
        decide_eq_true_eq]
      rcases h with h | ⟨h1, h2⟩
      · refine ⟨?_, ?_⟩
        · exact byte_lt_asymm _ _ h
        · intro hyx
          subst hyx
          exact absurd h (byte_lt_irrefl _)
      · subst h1
        exact ⟨byte_lt_irrefl _, fun _ => ih ys h2⟩

/-- The order of keys is transitive. -/
theorem keyLess_trans (a b c : GoString) :
    keyLess a b = true → keyLess b c = true → keyLess a c = true := by
  induction a generalizing b c with
  | nil =>
    intro h1 h2
    cases b with
    | nil => simp [keyLess] at h1
    | cons y ys =>
      cases c with
      | nil => simp [keyLess] at h2
      | cons z zs => rfl
  | cons x xs ih =>
    intro h1 h2
    cases b with
    | nil => simp [keyLess] at h1
    | cons y ys =>
      cases c with
      | nil => simp [keyLess] at h2
      | cons z zs =>
        simp only [keyLess, Bool.or_eq_true, decide_eq_true_eq, Bool.and_eq_true] at h1 h2 ⊢
        rcases h1 with h1 | ⟨e1, h1⟩ <;> rcases h2 with h2 | ⟨e2, h2⟩
        · exact Or.inl (byte_lt_trans _ _ _ h1 h2)
        · subst e2
          exact Or.inl h1
        · subst e1
          exact Or.inl h2
        · subst e1
          subst e2
          exact Or.inr ⟨rfl, ih ys zs h1 h2⟩

/-- A member with a key above every key stored goes to the end. -/
theorem setMember_append (k : GoString) (v : JSONValue) (acc : List (GoString × JSONValue))
    (h : ∀ p ∈ acc, keyLess p.1 k = true) : setMember k v acc = acc ++ [(k, v)] := by
  induction acc with
  | nil => rfl
  | cons p rest ih =>
    obtain ⟨k1, v1⟩ := p
    have h1 : keyLess k1 k = true := h (k1, v1) (List.mem_cons_self _ _)
    have hne : ¬ k = k1 := by
      intro e
      subst e
      rw [keyLess_irrefl] at h1
      exact absurd h1 (by decide)
    have hnl : keyLess k k1 = false := keyLess_asymm k1 k h1
    simp [setMember, hne, hnl, ih (fun p hp => h p (List.mem_cons_of_mem _ hp))]

/-- Keys that follow `k` in increasing order are all above `k`. -/
theorem keysFrom_all (k : GoString) (l : List GoString) (h : keysFrom k l = true) :
    ∀ b ∈ l, keyLess k b = true := by
  induction l generalizing k with
  | nil => simp
  | cons x xs ih =>
    simp only [keysFrom, Bool.and_eq_true] at h
    intro b hb
    rcases List.mem_cons.1 hb with rfl | hb
    · exact h.1
    · exact keyLess_trans k x b h.1 (ih x h.2 b hb)

/-- The literal `null` is read back. -/
theorem parseValue_null (fuel depth : Nat) (T : GoString) :
    parseValue (fuel + 1) depth (encodeValue .null ++ T) = .ok (.null, none, T) := by
  show parseValue (fuel + 1) depth (0x6E :: 0x75 :: 0x6C :: 0x6C :: T) = _
  simp [parseValue, skipSpace, expectLiteral, Except.map, isDigit]

/-- The literal `true` is read back. -/
theorem parseValue_true (fuel depth : Nat) (T : GoString) :
    parseValue (fuel + 1) depth (encodeValue (.bool true) ++ T) = .ok (.bool true, none, T) := by
  show parseValue (fuel + 1) depth (0x74 :: 0x72 :: 0x75 :: 0x65 :: T) = _
  simp [parseValue, skipSpace, expectLiteral, Except.map, isDigit]

/-- The literal `false` is read back. -/
theorem parseValue_false (fuel depth : Nat) (T : GoString) :
    parseValue (fuel + 1) depth (encodeValue (.bool false) ++ T)
      = .ok (.bool false, none, T) := by
  show parseValue (fuel + 1) depth (0x66 :: 0x61 :: 0x6C :: 0x73 :: 0x65 :: T) = _
  simp [parseValue, skipSpace, expectLiteral, Except.map, isDigit]

/-- A number is read back. -/
theorem parseValue_number (n : Float64) (fuel depth : Nat) (T : GoString)
    (hwf : n.wellFormed = true) (hT : terminated T = true) :
    parseValue (fuel + 1) depth (encodeValue (.number n) ++ T) = .ok (.number n, none, T) := by
  have h := scanNumber_formatFloat n T hwf hT
  obtain ⟨c, t, hct, hc⟩ := formatFloat_head n hwf
  obtain ⟨h1, h2, h3, h4, h5⟩ := digit_valueStart c hc
  obtain ⟨h6, _, _⟩ := valueStart_spec c h1
  show parseValue (fuel + 1) depth (formatFloat n ++ T) = _
  rw [hct] at h ⊢
  simp only [List.cons_append] at h ⊢
  simp only [parseValue, skipSpace_cons c _ h6, if_neg h2, if_neg h3, if_neg h4, h5, if_true]
  exact h

/-- A string is read back. -/
theorem parseValue_string (s : GoString) (fuel depth : Nat) (T : GoString)
    (hwf : validUTF8 s.length s = true) :
    parseValue (fuel + 1) depth (encodeValue (.string s) ++ T) = .ok (.string s, none, T) := by
  have hrw : encodeValue (.string s) ++ T = 0x22 :: (encodeChars s.length s ++ 0x22 :: T) := by
    simp [encodeValue, encodeString]
  rw [hrw]
  have h := decodeChars_encodeChars s.length s T
    (encodeChars s.length s ++ 0x22 :: T).length (le_refl _) hwf (by simp)
  simp only [parseValue]
  have hsk : skipSpace (0x22 :: (encodeChars s.length s ++ 0x22 :: T))
      = 0x22 :: (encodeChars s.length s ++ 0x22 :: T) := skipSpace_cons _ _ (by decide)
  rw [hsk]
  simp only [h]
  rfl

/-- An opening bracket followed by a value: the items are read. -/
theorem parseValue_array (fuel depth : Nat) (c : UInt8) (r : GoString)
    (hc : valueStart c = true) (hd : depth + 1 ≤ 10000) :
    parseValue (fuel + 1) depth (0x5B :: c :: r)
      = (parseItems fuel (depth + 1) (c :: r)).map fun x => (.array x.1, x.2.1, x.2.2) := by
  obtain ⟨h1, h2, _⟩ := valueStart_spec c hc
  have hsk : skipSpace (0x5B :: c :: r) = 0x5B :: c :: r := skipSpace_cons _ _ (by decide)
  have hnd : ¬ 10000 < depth + 1 := by omega
  simp only [parseValue, hsk, skipSpace_cons c r h1, if_neg h2, if_neg hnd]
  rfl

/-- An opening brace followed by a key: the members are read. -/
theorem parseValue_object (fuel depth : Nat) (r : GoString) (hd : depth + 1 ≤ 10000) :
    parseValue (fuel + 1) depth (0x7B :: 0x22 :: r)
      = (parseMembers fuel (depth + 1) (0x22 :: r) [] none).map
          fun x => (.object x.1, x.2.1, x.2.2) := by
  have hsk : skipSpace (0x7B :: 0x22 :: r) = 0x7B :: 0x22 :: r := skipSpace_cons _ _ (by decide)
  have hsk2 : skipSpace (0x22 :: r) = 0x22 :: r := skipSpace_cons _ _ (by decide)
  have hnd : ¬ 10000 < depth + 1 := by omega
  simp only [parseValue, hsk, hsk2, if_neg hnd]
  rfl

/-- An item followed by a comma: the items after it are read. -/
theorem parseItems_more (fuel depth : Nat) (s rest : GoString) (v : JSONValue)
    (h : parseValue fuel depth s = .ok (v, none, 0x2C :: rest)) :
    parseItems (fuel + 1) depth s
      = (parseItems fuel depth rest).map fun r => (v :: r.1, r.2.1, r.2.2) := by
  have hsk : skipSpace (0x2C :: rest) = 0x2C :: rest := skipSpace_cons _ _ (by decide)
  simp only [parseItems, h, hsk, firstError]
  rfl

/-- An item followed by the closing bracket is the last. -/
theorem parseItems_last (fuel depth : Nat) (s rest : GoString) (v : JSONValue)
    (h : parseValue fuel depth s = .ok (v, none, 0x5D :: rest)) :
    parseItems (fuel + 1) depth s = .ok ([v], none, rest) := by
  have hsk : skipSpace (0x5D :: rest) = 0x5D :: rest := skipSpace_cons _ _ (by decide)
  simp only [parseItems, h, hsk]
  rfl

/-- A member followed by a comma is stored, and the members after it are read. -/
theorem parseMembers_more (fuel depth : Nat) (k s rest : GoString) (v : JSONValue)
    (acc : List (GoString × JSONValue)) (hk : validUTF8 k.length k = true)
    (h : parseValue fuel depth s = .ok (v, none, 0x2C :: rest)) :
    parseMembers (fuel + 1) depth (encodeString k ++ 0x3A :: s) acc none
      = parseMembers fuel depth rest (setMember k v acc) none := by
  have hrw : encodeString k ++ 0x3A :: s
      = 0x22 :: (encodeChars k.length k ++ 0x22 :: 0x3A :: s) := by
    simp [encodeString]
  rw [hrw]
  have hdec := decodeChars_encodeChars k.length k (0x3A :: s)
    (encodeChars k.length k ++ 0x22 :: 0x3A :: s).length (le_refl _) hk (by simp)
  have hsk : skipSpace (0x22 :: (encodeChars k.length k ++ 0x22 :: 0x3A :: s))
      = 0x22 :: (encodeChars k.length k ++ 0x22 :: 0x3A :: s) := skipSpace_cons _ _ (by decide)
  have hsk2 : skipSpace (0x3A :: s) = 0x3A :: s := skipSpace_cons _ _ (by decide)
  have hsk3 : skipSpace (0x2C :: rest) = 0x2C :: rest := skipSpace_cons _ _ (by decide)
  simp only [parseMembers, hsk]
  simp only [hdec, hsk2]
  simp only [h, hsk3, firstError]
  rfl

/-- A member followed by the closing brace is stored as the last. -/
theorem parseMembers_last (fuel depth : Nat) (k s rest : GoString) (v : JSONValue)
    (acc : List (GoString × JSONValue)) (hk : validUTF8 k.length k = true)
    (h : parseValue fuel depth s = .ok (v, none, 0x7D :: rest)) :
    parseMembers (fuel + 1) depth (encodeString k ++ 0x3A :: s) acc none
      = .ok (setMember k v acc, none, rest) := by
  have hrw : encodeString k ++ 0x3A :: s
      = 0x22 :: (encodeChars k.length k ++ 0x22 :: 0x3A :: s) := by
    simp [encodeString]
  rw [hrw]
  have hdec := decodeChars_encodeChars k.length k (0x3A :: s)
    (encodeChars k.length k ++ 0x22 :: 0x3A :: s).length (le_refl _) hk (by simp)
  have hsk : skipSpace (0x22 :: (encodeChars k.length k ++ 0x22 :: 0x3A :: s))
      = 0x22 :: (encodeChars k.length k ++ 0x22 :: 0x3A :: s) := skipSpace_cons _ _ (by decide)
  have hsk2 : skipSpace (0x3A :: s) = 0x3A :: s := skipSpace_cons _ _ (by decide)
  have hsk3 : skipSpace (0x7D :: rest) = 0x7D :: rest := skipSpace_cons _ _ (by decide)
  simp only [parseMembers, hsk]
  simp only [hdec, hsk2]
  simp only [h, hsk3, firstError]
  rfl

/-- Keys that follow a key in increasing order are in increasing order. -/
theorem keysFrom_increasing (k : GoString) (l : List GoString) (h : keysFrom k l = true) :
    keysIncreasing l = true := by
  cases l with
  | nil => rfl
  | cons b r =>
    simp only [keysFrom, Bool.and_eq_true] at h
    exact h.2

/-- Members are written with the quote of the first key first. -/
theorem encodeMembers_head (p : GoString × JSONValue) (rest : List (GoString × JSONValue)) :
    ∃ r, encodeMembers (p :: rest) = 0x22 :: r := by
  obtain ⟨k, v⟩ := p
  exact ⟨_, by simp [encodeMembers, encodeString]; rfl⟩

/-- Items are written with a byte first that can start a value. -/
theorem encodeItems_head (v : JSONValue) (rest : List JSONValue) (hwf : v.wellFormed = true) :
    ∃ c r, encodeItems (v :: rest) = c :: r ∧ valueStart c = true := by
  obtain ⟨c, t, h1, h2⟩ := encodeValue_head v hwf
  exact ⟨c, _, by simp [encodeItems, h1]; rfl, h2⟩

mutual
/-- Reading what was written gives the value back, with no error kept and the
text after the value left. -/
theorem parseValue_encode : ∀ (v : JSONValue) (fuel depth : Nat) (T : GoString),
    v.wellFormed = true → v.size ≤ fuel → depth + v.depth ≤ 10000 → terminated T = true →
    parseValue fuel depth (encodeValue v ++ T) = .ok (v, none, T)
  | .null, fuel, depth, T, _, hs, _, _ => by
    obtain ⟨f, rfl⟩ : ∃ f, fuel = f + 1 := ⟨fuel - 1, by simp [JSONValue.size] at hs; omega⟩
    exact parseValue_null f depth T
  | .bool true, fuel, depth, T, _, hs, _, _ => by
    obtain ⟨f, rfl⟩ : ∃ f, fuel = f + 1 := ⟨fuel - 1, by simp [JSONValue.size] at hs; omega⟩
    exact parseValue_true f depth T
  | .bool false, fuel, depth, T, _, hs, _, _ => by
    obtain ⟨f, rfl⟩ : ∃ f, fuel = f + 1 := ⟨fuel - 1, by simp [JSONValue.size] at hs; omega⟩
    exact parseValue_false f depth T
  | .number n, fuel, depth, T, hwf, hs, _, hT => by
    obtain ⟨f, rfl⟩ : ∃ f, fuel = f + 1 := ⟨fuel - 1, by simp [JSONValue.size] at hs; omega⟩
    exact parseValue_number n f depth T (by simpa [JSONValue.wellFormed] using hwf) hT
  | .string s, fuel, depth, T, hwf, hs, _, _ => by
    obtain ⟨f, rfl⟩ : ∃ f, fuel = f + 1 := ⟨fuel - 1, by simp [JSONValue.size] at hs; omega⟩
    exact parseValue_string s f depth T (by simpa [JSONValue.wellFormed] using hwf)
  | .array [], fuel, depth, T, _, hs, hd, _ => by
    obtain ⟨f, rfl⟩ : ∃ f, fuel = f + 1 := ⟨fuel - 1, by simp [JSONValue.size] at hs; omega⟩
    have hrw : encodeValue (.array []) ++ T = 0x5B :: 0x5D :: T := by
      simp [encodeValue, encodeItems]
    have hsk : skipSpace (0x5B :: 0x5D :: T) = 0x5B :: 0x5D :: T := skipSpace_cons _ _ (by decide)
    have hsk2 : skipSpace (0x5D :: T) = 0x5D :: T := skipSpace_cons _ _ (by decide)
    have hnd : ¬ 10000 < depth + 1 := by
      simp [JSONValue.depth] at hd
      omega
    rw [hrw]
    simp only [parseValue, hsk, hsk2, if_neg hnd]
    rfl
  | .array (v :: rest), fuel, depth, T, hwf, hs, hd, _ => by
    obtain ⟨f, rfl⟩ : ∃ f, fuel = f + 1 := ⟨fuel - 1, by simp [JSONValue.size] at hs; omega⟩
    have hwf2 : wellFormedItems (v :: rest) = true := by
      simpa [JSONValue.wellFormed] using hwf
    have hwfv : v.wellFormed = true := by
      simp only [wellFormedItems, Bool.and_eq_true] at hwf2
      exact hwf2.1
    obtain ⟨c, r, hcr, hc⟩ := encodeItems_head v rest hwfv
    have ih := parseItems_encode (v :: rest) f (depth + 1) T (by simp) hwf2
      (by simp only [JSONValue.size] at hs; omega)
      (by simp only [JSONValue.depth] at hd; omega)
    have hrw : encodeValue (.array (v :: rest)) ++ T
        = 0x5B :: (encodeItems (v :: rest) ++ 0x5D :: T) := by
      simp [encodeValue]
    rw [hrw]
    rw [hcr] at ih ⊢
    rw [List.cons_append] at ih ⊢
    rw [parseValue_array f depth c _ hc (by simp only [JSONValue.depth] at hd; omega), ih]
    rfl
  | .object [], fuel, depth, T, _, hs, hd, _ => by
    obtain ⟨f, rfl⟩ : ∃ f, fuel = f + 1 := ⟨fuel - 1, by simp [JSONValue.size] at hs; omega⟩
    have hrw : encodeValue (.object []) ++ T = 0x7B :: 0x7D :: T := by
      simp [encodeValue, encodeMembers]
    have hsk : skipSpace (0x7B :: 0x7D :: T) = 0x7B :: 0x7D :: T := skipSpace_cons _ _ (by decide)
    have hsk2 : skipSpace (0x7D :: T) = 0x7D :: T := skipSpace_cons _ _ (by decide)
    have hnd : ¬ 10000 < depth + 1 := by
      simp [JSONValue.depth] at hd
      omega
    rw [hrw]
    simp only [parseValue, hsk, hsk2, if_neg hnd]
    rfl
  | .object (p :: rest), fuel, depth, T, hwf, hs, hd, _ => by
    obtain ⟨f, rfl⟩ : ∃ f, fuel = f + 1 := ⟨fuel - 1, by simp [JSONValue.size] at hs; omega⟩
    have hwf2 : keysIncreasing ((p :: rest).map Prod.fst) = true
        ∧ wellFormedMembers (p :: rest) = true := by
      simpa [JSONValue.wellFormed] using hwf
    obtain ⟨r, hr⟩ := encodeMembers_head p rest
    have ih := parseMembers_encode (p :: rest) [] f (depth + 1) T (by simp) hwf2.1 hwf2.2
      (by simp) (by simp only [JSONValue.size] at hs; omega)
      (by simp only [JSONValue.depth] at hd; omega)
    have hrw : encodeValue (.object (p :: rest)) ++ T
        = 0x7B :: (encodeMembers (p :: rest) ++ 0x7D :: T) := by
      simp [encodeValue]
    rw [hrw]
    rw [hr] at ih ⊢
    rw [List.cons_append] at ih ⊢
    rw [parseValue_object f depth _ (by simp only [JSONValue.depth] at hd; omega), ih]
    rfl
/-- Reading the items written, up to the closing bracket, gives the items. -/
theorem parseItems_encode : ∀ (items : List JSONValue) (fuel depth : Nat) (T : GoString),
    items ≠ [] → wellFormedItems items = true → sizeItems items ≤ fuel →
    depth + depthItems items ≤ 10000 →
    parseItems fuel depth (encodeItems items ++ 0x5D :: T) = .ok (items, none, T)
  | [], _, _, _, hne, _, _, _ => absurd rfl hne
  | v :: rest, fuel, depth, T, _, hwf, hs, hd => by
    obtain ⟨f, rfl⟩ : ∃ f, fuel = f + 1 := ⟨fuel - 1, by simp [sizeItems] at hs; omega⟩
    simp only [wellFormedItems, Bool.and_eq_true] at hwf
    simp only [sizeItems] at hs
    simp only [depthItems] at hd
    have ihv := parseValue_encode v f depth
    have ihr := parseItems_encode rest f depth T
    cases rest with
    | nil =>
      have h := ihv (0x5D :: T) hwf.1 (by omega) (by omega) rfl
      have hrw : encodeItems [v] ++ 0x5D :: T = encodeValue v ++ 0x5D :: T := by
        simp [encodeItems]
      rw [hrw]
      exact parseItems_last f depth _ T v h
    | cons w more =>
      have h := ihv (0x2C :: (encodeItems (w :: more) ++ 0x5D :: T)) hwf.1 (by omega)
        (by omega) rfl
      have h2 := ihr (by simp) hwf.2 (by omega) (by omega)
      have hrw : encodeItems (v :: w :: more) ++ 0x5D :: T
          = encodeValue v ++ 0x2C :: (encodeItems (w :: more) ++ 0x5D :: T) := by
        simp [encodeItems]
      rw [hrw, parseItems_more f depth _ _ v h, h2]
      rfl
/-- Reading the members written, up to the closing brace, stores the members
after the ones read before. -/
theorem parseMembers_encode : ∀ (ms acc : List (GoString × JSONValue)) (fuel depth : Nat)
    (T : GoString), ms ≠ [] → keysIncreasing (ms.map Prod.fst) = true →
    wellFormedMembers ms = true → (∀ p ∈ acc, ∀ q ∈ ms, keyLess p.1 q.1 = true) →
    sizeMembers ms ≤ fuel → depth + depthMembers ms ≤ 10000 →
    parseMembers fuel depth (encodeMembers ms ++ 0x7D :: T) acc none = .ok (acc ++ ms, none, T)
  | [], _, _, _, _, hne, _, _, _, _, _ => absurd rfl hne
  | (k, v) :: rest, acc, fuel, depth, T, _, hkeys, hwf, hacc, hs, hd => by
    obtain ⟨f, rfl⟩ : ∃ f, fuel = f + 1 := ⟨fuel - 1, by simp [sizeMembers] at hs; omega⟩
    simp only [wellFormedMembers, Bool.and_eq_true] at hwf
    simp only [sizeMembers] at hs
    simp only [depthMembers] at hd
    simp only [List.map_cons, keysIncreasing] at hkeys
    have hset : setMember k v acc = acc ++ [(k, v)] :=
      setMember_append k v acc (fun p hp => hacc p hp (k, v) (List.mem_cons_self _ _))
    have ihv := parseValue_encode v f depth
    have ihr := parseMembers_encode rest (acc ++ [(k, v)]) f depth T
    cases rest with
    | nil =>
      have h := ihv (0x7D :: T) hwf.1.2 (by omega) (by omega) rfl
      have hrw : encodeMembers [(k, v)] ++ 0x7D :: T
          = encodeString k ++ 0x3A :: (encodeValue v ++ 0x7D :: T) := by
        simp [encodeMembers]
      rw [hrw, parseMembers_last f depth k _ T v acc hwf.1.1 h, hset]
    | cons w more =>
      have h := ihv (0x2C :: (encodeMembers (w :: more) ++ 0x7D :: T)) hwf.1.2 (by omega)
        (by omega) rfl
      have hall := keysFrom_all k _ hkeys
      have h2 := ihr (by simp) (keysFrom_increasing k _ hkeys) hwf.2
        (by
          intro p hp q hq
          rcases List.mem_append.1 hp with hp | hp
          · exact hacc p hp q (List.mem_cons_of_mem _ hq)
          · simp only [List.mem_singleton] at hp
            subst hp
            exact hall q.1 (List.mem_map_of_mem _ hq))
        (by omega) (by omega)
      have hrw : encodeMembers ((k, v) :: w :: more) ++ 0x7D :: T
          = encodeString k ++ 0x3A :: (encodeValue v
              ++ 0x2C :: (encodeMembers (w :: more) ++ 0x7D :: T)) := by
        simp [encodeMembers]
      rw [hrw, parseMembers_more f depth k _ _ v acc hwf.1.1 h, hset, h2]
      simp
end

mutual
/-- The size of a value is at most twice the length of its text. -/
theorem size_le_value : ∀ (v : JSONValue), v.wellFormed = true →
    v.size ≤ 2 * (encodeValue v).length
  | .null, _ => by decide
  | .bool true, _ => by decide
  | .bool false, _ => by decide
  | .number n, hwf => by
    obtain ⟨c, t, h, _⟩ := formatFloat_head n (by simpa [JSONValue.wellFormed] using hwf)
    simp [JSONValue.size, encodeValue, h]
    omega
  | .string s, _ => by
    simp [JSONValue.size, encodeValue, encodeString]
    omega
  | .array items, hwf => by
    have ih := size_le_items items (by simpa [JSONValue.wellFormed] using hwf)
    simp [JSONValue.size, encodeValue]
    omega
  | .object members, hwf => by
    have hwf2 : keysIncreasing (members.map Prod.fst) = true
        ∧ wellFormedMembers members = true := by
      simpa [JSONValue.wellFormed] using hwf
    have ih := size_le_members members hwf2.2
    simp [JSONValue.size, encodeValue]
    omega
/-- The size of items is at most twice the length of their text, plus one. -/
theorem size_le_items : ∀ (items : List JSONValue), wellFormedItems items = true →
    sizeItems items ≤ 2 * (encodeItems items).length + 1
  | [], _ => by simp [sizeItems]
  | v :: rest, hwf => by
    simp only [wellFormedItems, Bool.and_eq_true] at hwf
    have ihv := size_le_value v hwf.1
    have ihr := size_le_items rest hwf.2
    cases rest with
    | nil =>
      simp [sizeItems, encodeItems]
      omega
    | cons w more =>
      simp [sizeItems, encodeItems] at ihr ⊢
      omega
/-- The size of members is at most twice the length of their text, plus one. -/
theorem size_le_members : ∀ (ms : List (GoString × JSONValue)), wellFormedMembers ms = true →
    sizeMembers ms ≤ 2 * (encodeMembers ms).length + 1
  | [], _ => by simp [sizeMembers]
  | (k, v) :: rest, hwf => by
    simp only [wellFormedMembers, Bool.and_eq_true] at hwf
    have ihv := size_le_value v hwf.1.2
    have ihr := size_le_members rest hwf.2
    cases rest with
    | nil =>
      simp [sizeMembers, encodeMembers]
      omega
    | cons w more =>
      simp [sizeMembers, encodeMembers] at ihr ⊢
      omega
end

/-- The function `json.Unmarshal` returns the content model that `json.Marshal`
wrote, for every well-formed content model. -/
theorem Unmarshal_Marshal (m : Model) (text : GoString) (hwf : Model.wellFormed m = true)
    (h : Marshal m = .ok text) : Unmarshal text = .ok m := by
  cases m with
  | none =>
    simp only [Marshal, Except.ok.injEq] at h
    subst h
    rfl
  | some ms =>
    simp only [Marshal, Except.ok.injEq] at h
    subst h
    simp only [Model.wellFormed, Bool.and_eq_true, decide_eq_true_eq] at hwf
    have hsize := size_le_value (.object ms) hwf.1
    have hp := parseValue_encode (.object ms) (2 * (encodeValue (.object ms)).length + 4) 0
      [0x20] hwf.1 (by omega) (by omega) (by decide)
    simp only [Unmarshal, hp]
    rfl

/-! ### Nesting beyond the limit of the decoder -/

/-- The text of nested arrays: an opening bracket, the text of the arrays
inside, a closing bracket. -/
theorem encodeValue_deepArray (k : Nat) :
    encodeValue (deepArray (k + 1)) = 0x5B :: (encodeValue (deepArray k) ++ [0x5D]) := by
  simp [deepArray, encodeValue, encodeItems]

/-- The text of nested arrays holds brackets only. -/
theorem deepArray_bytes (k : Nat) : ∀ c ∈ encodeValue (deepArray k), c = 0x5B ∨ c = 0x5D := by
  induction k with
  | zero =>
    intro c hc
    simp [deepArray, encodeValue, encodeItems] at hc
    exact hc
  | succ k ih =>
    intro c hc
    rw [encodeValue_deepArray] at hc
    simp only [List.mem_cons, List.mem_append, List.mem_singleton, List.not_mem_nil,
      or_false] at hc
    rcases hc with h | h | h
    · exact Or.inl h
    · exact ih c h
    · exact Or.inr h

/-- The text of `k + 1` nested arrays has `2 * k + 2` bytes. -/
theorem deepArray_length (k : Nat) : (encodeValue (deepArray k)).length = 2 * k + 2 := by
  induction k with
  | zero => simp [deepArray, encodeValue, encodeItems]
  | succ k ih =>
    rw [encodeValue_deepArray]
    simp [ih]
    omega

/-- An array that would be open beyond the limit of 10000 is an error of the
scanner. -/
theorem parseValue_deepArray (k : Nat) : ∀ (fuel depth : Nat) (T : GoString),
    2 * k + 1 ≤ fuel → 10000 < depth + k + 1 →
    parseValue fuel depth (encodeValue (deepArray k) ++ T)
      = .error (syntaxError 0x5B "exceeded max depth") := by
  induction k with
  | zero =>
    intro fuel depth T hf hd
    obtain ⟨f, rfl⟩ : ∃ f, fuel = f + 1 := ⟨fuel - 1, by omega⟩
    have hrw : encodeValue (deepArray 0) ++ T = 0x5B :: 0x5D :: T := by
      simp [deepArray, encodeValue, encodeItems]
    have hsk : skipSpace (0x5B :: 0x5D :: T) = 0x5B :: 0x5D :: T := skipSpace_cons _ _ (by decide)
    have hdd : 10000 < depth + 1 := by omega
    rw [hrw]
    simp only [parseValue, hsk, if_pos hdd]
    rfl
  | succ k ih =>
    intro fuel depth T hf hd
    obtain ⟨f, rfl⟩ : ∃ f, fuel = f + 1 + 1 := ⟨fuel - 2, by omega⟩
    have hrw : encodeValue (deepArray (k + 1)) ++ T
        = 0x5B :: (encodeValue (deepArray k) ++ 0x5D :: T) := by
      rw [encodeValue_deepArray]
      simp
    rw [hrw]
    have hsk : skipSpace (0x5B :: (encodeValue (deepArray k) ++ 0x5D :: T))
        = 0x5B :: (encodeValue (deepArray k) ++ 0x5D :: T) := skipSpace_cons _ _ (by decide)
    by_cases hdd : 10000 < depth + 1
    · simp only [parseValue, hsk, if_pos hdd]
      rfl
    · have hin := ih f (depth + 1) (0x5D :: T) (by omega) (by omega)
      obtain ⟨c, r, hcr, hc⟩ : ∃ c r, encodeValue (deepArray k) = c :: r ∧ c = 0x5B := by
        cases k with
        | zero => exact ⟨0x5B, [0x5D], by simp [deepArray, encodeValue, encodeItems], rfl⟩
        | succ j => exact ⟨0x5B, _, encodeValue_deepArray j, rfl⟩
      subst hc
      rw [hcr] at hin ⊢
      rw [List.cons_append] at hin ⊢
      rw [parseValue_array (f + 1) depth 0x5B _ (by decide) (by omega)]
      simp only [parseItems, hin]
      rfl

/-- An error in the value of a member is the error of the members. -/
theorem parseMembers_error (fuel depth : Nat) (k s e : GoString)
    (acc : List (GoString × JSONValue)) (hk : validUTF8 k.length k = true)
    (h : parseValue fuel depth s = .error e) :
    parseMembers (fuel + 1) depth (encodeString k ++ 0x3A :: s) acc none = .error e := by
  have hrw : encodeString k ++ 0x3A :: s
      = 0x22 :: (encodeChars k.length k ++ 0x22 :: 0x3A :: s) := by
    simp [encodeString]
  rw [hrw]
  have hdec := decodeChars_encodeChars k.length k (0x3A :: s)
    (encodeChars k.length k ++ 0x22 :: 0x3A :: s).length (le_refl _) hk (by simp)
  have hsk : skipSpace (0x22 :: (encodeChars k.length k ++ 0x22 :: 0x3A :: s))
      = 0x22 :: (encodeChars k.length k ++ 0x22 :: 0x3A :: s) := skipSpace_cons _ _ (by decide)
  have hsk2 : skipSpace (0x3A :: s) = 0x3A :: s := skipSpace_cons _ _ (by decide)
  simp only [parseMembers, hsk]
  simp only [hdec, hsk2]
  simp only [h]
  rfl

/-- A model with at least 10000 arrays nested in its member is written by
`json.Marshal`, and the text is rejected by `json.Unmarshal`. -/
theorem Unmarshal_deepArray (k : Nat) (hk : 9999 ≤ k) :
    Unmarshal (encodeValue (.object [(str "a", deepArray k)]))
      = .error (syntaxError 0x5B "exceeded max depth") := by
  have hrw : encodeValue (.object [(str "a", deepArray k)])
      = 0x7B :: (encodeString (str "a") ++ 0x3A :: (encodeValue (deepArray k) ++ [0x7D])) := by
    simp [encodeValue, encodeMembers]
  have hlen : (encodeValue (.object [(str "a", deepArray k)])).length = 2 * k + 8 := by
    rw [hrw]
    have : (encodeString (str "a")).length = 3 := by decide
    simp [deepArray_length, this]
    omega
  have hin := parseValue_deepArray k (2 * (2 * k + 8) + 2) 1 (0x7D :: [0x20]) (by omega)
    (by omega)
  have hmem := parseMembers_error (2 * (2 * k + 8) + 2) 1 (str "a") _ _ [] (by decide) hin
  have hq : ∃ r, encodeString (str "a") ++ 0x3A :: (encodeValue (deepArray k) ++ 0x7D :: [0x20])
      = 0x22 :: r := ⟨_, rfl⟩
  obtain ⟨r, hr⟩ := hq
  rw [hr] at hmem
  have htext : encodeValue (.object [(str "a", deepArray k)]) ++ [0x20] = 0x7B :: 0x22 :: r := by
    rw [hrw, ← hr]
    simp
  simp only [Unmarshal, hlen, htext]
  rw [show 2 * (2 * k + 8) + 4 = (2 * (2 * k + 8) + 2 + 1) + 1 by omega,
    parseValue_object _ 0 r (by omega), hmem]
  rfl

/-- A run whose re-parse fails: the error is returned wrapped and the only
remote call is the fetch. -/
theorem processDashboard_unparsed {σ C M X R : Type} (api : Gapi σ C M X R) (json : Codec M)
    (cfg : config) (w w1 : σ) (client : C) (d : Dashboard M X) (dbytes e : GoString)
    (hnew : api.New cfg.url cfg.apikey cfg.retries = .ok client)
    (hfetch : api.DashboardByUID client cfg.uid w = (.ok d, w1))
    (hser : json.Marshal d.Model = .ok dbytes)
    (hbad : json.Unmarshal (substitute cfg.replace.rs dbytes) = .error e) :
    (processDashboard api json cfg w).err
      = some (str "unable to marshal processed model: " ++ e)
    ∧ (processDashboard api json cfg w).calls = [.DashboardByUID cfg.uid (.ok d)] := by
  simp [processDashboard, hnew, hfetch, hser, hbad, wrapError]

/-- The text that `json.Marshal` writes for nested arrays: the opening
brackets, then the closing brackets. -/
theorem deepArray_text (k : Nat) :
    encodeValue (deepArray k) = List.replicate (k + 1) 0x5B ++ List.replicate (k + 1) 0x5D := by
  induction k with
  | zero => simp [deepArray, encodeValue, encodeItems]
  | succ k ih =>
    rw [encodeValue_deepArray, ih, List.replicate_succ (n := k + 1),
      List.replicate_succ' (n := k + 1)]
    simp

/-- The text that `json.Marshal` writes for `deepModel k` is `deepText k`. -/
theorem Marshal_deepModel (k : Nat) : jsonCodec.Marshal (deepModel k) = .ok (deepText k) := by
  show Except.ok (encodeValue (.object [(str "a", deepArray k)])) = Except.ok (deepText k)
  have hrw : encodeValue (.object [(str "a", deepArray k)])
      = 0x7B :: (encodeString (str "a") ++ 0x3A :: (encodeValue (deepArray k) ++ [0x7D])) := by
    simp [encodeValue, encodeMembers]
  rw [hrw, deepArray_text]
  rfl

/-- The text `deepText k` holds no `s`, hence no `staging`. -/
theorem deepText_no_match (k : Nat) :
    ∀ r ∈ stagingConfig.replace.rs, ¬ r.key <:+: deepText k := by
  intro r hr hin
  have hkey : r.key = str "staging" := by
    simp only [stagingConfig, configWith, List.mem_singleton] at hr
    rw [hr]
  have hs : (0x73 : UInt8) ∈ r.key := by
    rw [hkey]
    decide
  have hmem := hin.subset hs
  simp only [deepText, List.mem_append, List.mem_replicate] at hmem
  rcases hmem with (h | h | h) | h
  · revert h
    decide
  · exact absurd h.2 (by decide)
  · exact absurd h.2 (by decide)
  · revert h
    decide

/-- The text with at least 10000 arrays nested is rejected by `json.Unmarshal`. -/
theorem Unmarshal_deepText (k : Nat) (hk : 9999 ≤ k) :
    jsonCodec.Unmarshal (deepText k)
      = .error (str "invalid character \x27[\x27 exceeded max depth") := by
  have h1 := Marshal_deepModel k
  have h2 := Unmarshal_deepArray k hk
  simp only [jsonCodec, Marshal, deepModel, Except.ok.injEq] at h1
  rw [h1] at h2
  exact h2

/-- The run on the model with at least 10000 arrays nested: the text written
for the fetched model is rejected when it is read back, the run returns the
error and the only remote call is the fetch. -/
theorem processDashboard_deepModel (k : Nat) (hk : 9999 ≤ k) :
    (processDashboard memoryGapi jsonCodec stagingConfig (deepRemote k)).err
      = some (str ("unable to marshal processed model: "
          ++ "invalid character \x27[\x27 exceeded max depth"))
    ∧ (processDashboard memoryGapi jsonCodec stagingConfig (deepRemote k)).calls
      = [.DashboardByUID (str "dash-1") (.ok (deepDashboard k))] := by
  have hsub : substitute stagingConfig.replace.rs (deepText k) = deepText k :=
    substitute_no_match _ _ (deepText_no_match k)
  have h := processDashboard_unparsed memoryGapi jsonCodec stagingConfig (deepRemote k)
    (deepRemote k) () (deepDashboard k) (deepText k)
    (str "invalid character \x27[\x27 exceeded max depth") rfl rfl (Marshal_deepModel k)
    (by rw [hsub]; exact Unmarshal_deepText k hk)
  exact h

/-! ## The run of `processDashboard` (C2, C3, C4, C8) -/

/-- The calls of a run whose every step up to the write succeeds: the fetch,
then the write of the fetched dashboard with the parsed model, the configured
overwrite flag and the audit message. -/
theorem processDashboard_written {σ C M X R : Type} (api : Gapi σ C M X R) (json : Codec M)
    (cfg : config) (w w1 : σ) (client : C) (d : Dashboard M X) (dbytes : GoString) (model : M)
    (hnew : api.New cfg.url cfg.apikey cfg.retries = .ok client)
    (hfetch : api.DashboardByUID client cfg.uid w = (.ok d, w1))
    (hser : json.Marshal d.Model = .ok dbytes)
    (hparse : json.Unmarshal (substitute cfg.replace.rs dbytes) = .ok model) :
    (processDashboard api json cfg w).calls
      = [.DashboardByUID cfg.uid (.ok d),
         .NewDashboard ⟨model, cfg.overwrite, replacerMessage cfg, d.other⟩
           (api.NewDashboard client
             ⟨model, cfg.overwrite, replacerMessage cfg, d.other⟩ w1).1] := by
  rcases hw : api.NewDashboard client ⟨model, cfg.overwrite, replacerMessage cfg, d.other⟩ w1
    with ⟨res, w2⟩
  cases res <;> simp [processDashboard, hnew, hfetch, hser, hparse, hw]

/-- C2 (counterexample): two content models whose text holds no key of the
rule `staging<=>production`, so that the substitution loop leaves the text
byte for byte, and which are not read back.  The model whose title is the
byte FF, which is not UTF-8: `json.Marshal` writes the replacement character
for the byte, the model parsed back has the title U+FFFD, differs from the
model fetched, and is the model written.  The model with 10000 arrays nested
in its member: `json.Marshal` writes it, `json.Unmarshal` rejects the text
beyond its limit of 10000 open arrays and objects, and the run returns the
error after the fetch, without a write. -/
theorem round_trip_not_for_every_model :
    (jsonCodec.Marshal rawByteModel = .ok rawByteText
      ∧ (∀ r ∈ stagingConfig.replace.rs, ¬ r.key <:+: rawByteText)
      ∧ substitute stagingConfig.replace.rs rawByteText = rawByteText
      ∧ jsonCodec.Unmarshal (substitute stagingConfig.replace.rs rawByteText)
        = .ok replacedByteModel
      ∧ replacedByteModel ≠ rawByteModel
      ∧ (processDashboard memoryGapi jsonCodec stagingConfig rawByteRemote).calls
        = [.DashboardByUID (str "dash-1") (.ok rawByteDashboard),
           .NewDashboard
             ⟨replacedByteModel, true,
               str "String replacement by aiven-grafana-string-replacer: staging<=>production",
               ()⟩
             (.ok ())])
    ∧ (jsonCodec.Marshal (deepModel 9999) = .ok (deepText 9999)
      ∧ (∀ r ∈ stagingConfig.replace.rs, ¬ r.key <:+: deepText 9999)
      ∧ substitute stagingConfig.replace.rs (deepText 9999) = deepText 9999
      ∧ jsonCodec.Unmarshal (substitute stagingConfig.replace.rs (deepText 9999))
        = .error (str "invalid character \x27[\x27 exceeded max depth")
      ∧ (processDashboard memoryGapi jsonCodec stagingConfig (deepRemote 9999)).err
        = some (str ("unable to marshal processed model: "
            ++ "invalid character \x27[\x27 exceeded max depth"))
      ∧ (processDashboard memoryGapi jsonCodec stagingConfig (deepRemote 9999)).calls
        = [.DashboardByUID (str "dash-1") (.ok (deepDashboard 9999))]) := by
  have hsub : substitute stagingConfig.replace.rs (deepText 9999) = deepText 9999 :=
    substitute_no_match _ _ (deepText_no_match 9999)
  have hrun := processDashboard_deepModel 9999 (le_refl _)
  refine ⟨⟨rfl, by decide, by decide, rfl, ?_, rfl⟩,
    ⟨Marshal_deepModel 9999, deepText_no_match 9999, hsub, ?_, hrun.1, hrun.2⟩⟩
  · intro h
    simp [replacedByteModel, rawByteModel] at h
  · rw [hsub]
    exact Unmarshal_deepText 9999 (le_refl _)

/-- C2: for every well-formed content model (strings in UTF-8, the members of
each object in increasing key order, numbers in their written form, nesting at
most 10000 deep) and every rule list of which no key occurs in the text that
`json.Marshal` writes for the model, the text after the substitution loop is
that text byte for byte, `json.Unmarshal` reads the fetched model back from
it, and the dashboard written carries the fetched model. -/
theorem round_trip_identity {σ C X R : Type} (api : Gapi σ C Model X R)
    (cfg : config) (w w1 : σ) (client : C) (d : Dashboard Model X) (text : GoString)
    (hnew : api.New cfg.url cfg.apikey cfg.retries = .ok client)
    (hfetch : api.DashboardByUID client cfg.uid w = (.ok d, w1))
    (hwf : Model.wellFormed d.Model = true)
    (hser : jsonCodec.Marshal d.Model = .ok text)
    (hkeys : ∀ r ∈ cfg.replace.rs, ¬ r.key <:+: text) :
    substitute cfg.replace.rs text = text
    ∧ jsonCodec.Unmarshal (substitute cfg.replace.rs text) = .ok d.Model
    ∧ (processDashboard api jsonCodec cfg w).calls
      = [.DashboardByUID cfg.uid (.ok d),
         .NewDashboard ⟨d.Model, cfg.overwrite, replacerMessage cfg, d.other⟩
           (api.NewDashboard client
             ⟨d.Model, cfg.overwrite, replacerMessage cfg, d.other⟩ w1).1] := by
  have hsub : substitute cfg.replace.rs text = text := substitute_no_match _ _ hkeys
  have hparse : jsonCodec.Unmarshal (substitute cfg.replace.rs text) = .ok d.Model := by
    rw [hsub]
    exact Unmarshal_Marshal d.Model text hwf hser
  exact ⟨hsub, hparse, processDashboard_written api jsonCodec cfg w w1 client d text d.Model
    hnew hfetch hser hparse⟩

/-- The rule `staging<=>production` on a dashboard whose model holds every
kind of value and whose text does not hold `staging`: the text is unchanged,
the model read back is the model fetched, and it is the model written. -/
theorem round_trip_identity_witness :
    Model.wellFormed panelModel = true
    ∧ jsonCodec.Marshal panelModel = .ok panelText
    ∧ substitute stagingConfig.replace.rs panelText = panelText
    ∧ jsonCodec.Unmarshal (substitute stagingConfig.replace.rs panelText) = .ok panelModel
    ∧ (processDashboard memoryGapi jsonCodec stagingConfig panelRemote).calls
      = [.DashboardByUID (str "dash-1") (.ok panelDashboard),
         .NewDashboard
           ⟨panelModel, true,
             str "String replacement by aiven-grafana-string-replacer: staging<=>production",
             ()⟩
           (.ok ())] := by
  have h := round_trip_identity memoryGapi stagingConfig panelRemote panelRemote ()
    panelDashboard panelText rfl rfl (by decide) rfl (by decide)
  exact ⟨by decide, rfl, h.1, h.2.1, h.2.2⟩

/-- C3: when the substituted text parses, the dashboard passed to the write
call has the parsed model, the configured overwrite flag and the audit message
of the configuration, and the other fields of the fetched dashboard; the write
is the call after the fetch, recorded with what the client returned. -/
theorem written_dashboard {σ C M X R : Type} (api : Gapi σ C M X R) (json : Codec M)
    (cfg : config) (w w1 : σ) (client : C) (d : Dashboard M X) (dbytes : GoString) (model : M)
    (hnew : api.New cfg.url cfg.apikey cfg.retries = .ok client)
    (hfetch : api.DashboardByUID client cfg.uid w = (.ok d, w1))
    (hser : json.Marshal d.Model = .ok dbytes)
    (hparse : json.Unmarshal (substitute cfg.replace.rs dbytes) = .ok model) :
    (processDashboard api json cfg w).calls
      = [.DashboardByUID cfg.uid (.ok d),
         .NewDashboard
           { Model := model, Overwrite := cfg.overwrite, Message := replacerMessage cfg,
             other := d.other }
           (api.NewDashboard client
             { Model := model, Overwrite := cfg.overwrite, Message := replacerMessage cfg,
               other := d.other } w1).1] :=
  processDashboard_written api json cfg w w1 client d dbytes model hnew hfetch hser hparse

/-- The end-to-end scenario of the spec: the model with title and query
`old-name`, the rule `old-name<=>new-name` and overwrite on; the model written
is the one with `new-name`, with overwrite on and the message ending in
`: old-name<=>new-name`. -/
theorem written_dashboard_witness :
    jsonCodec.Marshal oldModel = .ok oldText
    ∧ substitute renameConfig.replace.rs oldText = newText
    ∧ jsonCodec.Unmarshal newTextAsSpecified = .ok newModel
    ∧ renameConfig.overwrite = true
    ∧ (processDashboard memoryGapi jsonCodec renameConfig oldRemote).calls
      = [.DashboardByUID (str "dash-1") (.ok oldDashboard),
         .NewDashboard
           ⟨newModel, true,
             str "String replacement by aiven-grafana-string-replacer: old-name<=>new-name",
             ()⟩
           (.ok ())] :=
  ⟨rfl, by decide, rfl, rfl,
    written_dashboard memoryGapi jsonCodec renameConfig oldRemote oldRemote () oldDashboard
      oldText newModel rfl rfl rfl rfl⟩

/-- C4 (counterexample): the empty model `{}` with the rule that replaces `{}`
by `null`.  The text after substitution is `null`, which is not a JSON object;
`json.Unmarshal` accepts it and leaves the nil map, the run returns no error
and writes the dashboard with the nil model: the remote service has received
one save. -/
theorem null_text_is_written :
    jsonCodec.Marshal emptyModel = .ok (str "\x7b\x7d")
    ∧ substitute nullConfig.replace.rs (str "\x7b\x7d") = str "null"
    ∧ jsonCodec.Unmarshal (str "null") = .ok none
    ∧ (processDashboard memoryGapi jsonCodec nullConfig emptyRemote).err = none
    ∧ (processDashboard memoryGapi jsonCodec nullConfig emptyRemote).calls
      = [.DashboardByUID (str "dash-1") (.ok emptyDashboard),
         .NewDashboard
           ⟨none, true,
             str "String replacement by aiven-grafana-string-replacer: \x7b\x7d<=>null", ()⟩
           (.ok ())]
    ∧ (processDashboard memoryGapi jsonCodec nullConfig emptyRemote).world.saves = 1 :=
  ⟨rfl, by decide, rfl, rfl, rfl, rfl⟩

/-- C4: when `json.Unmarshal` of the text after substitution returns an error,
`processDashboard` returns that error wrapped, the only remote call of the run
is the fetch (no write), and the remote state is the one the fetch left. -/
theorem malformed_result_aborts {σ C M X R : Type} (api : Gapi σ C M X R) (json : Codec M)
    (cfg : config) (w w1 : σ) (client : C) (d : Dashboard M X) (dbytes e : GoString)
    (hnew : api.New cfg.url cfg.apikey cfg.retries = .ok client)
    (hfetch : api.DashboardByUID client cfg.uid w = (.ok d, w1))
    (hser : json.Marshal d.Model = .ok dbytes)
    (hbad : json.Unmarshal (substitute cfg.replace.rs dbytes) = .error e) :
    (processDashboard api json cfg w).err
      = some (str "unable to marshal processed model: " ++ e)
    ∧ (processDashboard api json cfg w).calls = [.DashboardByUID cfg.uid (.ok d)]
    ∧ (∀ c ∈ (processDashboard api json cfg w).calls, c.isWrite = false)
    ∧ (processDashboard api json cfg w).world = w1 := by
  simp [processDashboard, hnew, hfetch, hser, hbad, wrapError, Call.isWrite]

/-- The rule that replaces `old-name` by `new"name` breaks the strings of the
scenario's text: the decoder stops at the `n` after the first broken string,
the run returns its error and the remote service has received no save. -/
theorem malformed_result_aborts_witness :
    substitute (configWith [⟨str "old-name", str "new\"name"⟩]).replace.rs
        oldText
      = brokenText
    ∧ (processDashboard memoryGapi jsonCodec
          (configWith [⟨str "old-name", str "new\"name"⟩]) oldRemote).err
      = some (str ("unable to marshal processed model: "
          ++ "invalid character \x27n\x27 after object key:value pair"))
    ∧ (processDashboard memoryGapi jsonCodec
          (configWith [⟨str "old-name", str "new\"name"⟩]) oldRemote).world.saves = 0 := by
  have h := malformed_result_aborts memoryGapi jsonCodec
    (configWith [⟨str "old-name", str "new\"name"⟩]) oldRemote oldRemote () oldDashboard
    oldText (str "invalid character \x27n\x27 after object key:value pair")
    rfl rfl rfl rfl
  refine ⟨by decide, h.1, ?_⟩
  rw [h.2.2.2]
  rfl

/-- Texts that are JSON but no object, and a text cut short: `json.Unmarshal`
into the map returns the type error or the syntax error of the decoder, and
reads an object that holds numbers. -/
theorem Unmarshal_examples :
    jsonCodec.Unmarshal (str "[1]")
      = .error (str ("json: cannot unmarshal array into Go value of type "
          ++ "map[string]interface \x7b\x7d"))
    ∧ jsonCodec.Unmarshal (str "\"null\"")
      = .error (str ("json: cannot unmarshal string into Go value of type "
          ++ "map[string]interface \x7b\x7d"))
    ∧ jsonCodec.Unmarshal (str "-12.5e3")
      = .error (str ("json: cannot unmarshal number into Go value of type "
          ++ "map[string]interface \x7b\x7d"))
    ∧ jsonCodec.Unmarshal (str "false")
      = .error (str ("json: cannot unmarshal bool into Go value of type "
          ++ "map[string]interface \x7b\x7d"))
    ∧ jsonCodec.Unmarshal (str "\x7b\"id\":")
      = .error (str "unexpected end of JSON input")
    ∧ jsonCodec.Unmarshal (str "\x7b\"id\": 7, \"refresh\": 1.50\x7d")
      = .ok (some [(str "id", .number ⟨false, str "7", 0⟩),
                   (str "refresh", .number ⟨false, str "15", -1⟩)]) :=
  ⟨rfl, rfl, rfl, rfl, rfl, rfl⟩

/-- A text in which the separator does not occur has no split. -/
theorem cut_none (sep s : GoString) (h : ¬ sep <:+: s) : Cut sep s = none := by
  induction s with
  | nil =>
    have hne : sep ≠ [] := by
      rintro rfl
      exact h List.nil_infix
    simp [Cut, hne]
  | cons c rest ih =>
    have hp : HasPrefix (c :: rest) sep = false := by
      cases hb : HasPrefix (c :: rest) sep with
      | false => rfl
      | true => exact absurd ((hasPrefix_iff _ sep).1 hb).isInfix h
    have hr : ¬ sep <:+: rest := fun hi => h (hi.trans (List.suffix_cons c rest).isInfix)
    simp [Cut, hp, ih hr]

/-- The method `Set` fails on an entry without the separator. -/
theorem set_fails (r : replacements) (entry : GoString)
    (h : ¬ replacementSeperator <:+: entry) :
    r.Set entry = .error (str "malformed replacement: " ++ entry) := by
  simp [replacements.Set, cut_none replacementSeperator entry h]

/-- The parse of a command line fails when one of its `replace` entries has no
separator. -/
theorem flagParse_fails (args : List Flag) (cfg : config) (entry : GoString)
    (h : ¬ replacementSeperator <:+: entry) (hmem : Flag.replace entry ∈ args) :
    ∃ e, flagParse args cfg = .error e := by
  induction args generalizing cfg with
  | nil => simp at hmem
  | cons a rest ih =>
    have hrest : a = Flag.replace entry ∨ Flag.replace entry ∈ rest := by
      rcases List.mem_cons.1 hmem with h1 | h1
      · exact Or.inl h1.symm
      · exact Or.inr h1
    cases a with
    | replace v =>
      rcases hs : cfg.replace.Set v with e | rs
      · exact ⟨e, by simp [flagParse, hs]⟩
      · rcases hrest with h1 | h1
        · injection h1 with h2
          subst h2
          rw [set_fails cfg.replace v h] at hs
          cases hs
        · simpa [flagParse, hs] using ih _ h1
    | url v =>
      rcases hrest with h1 | h1
      · cases h1
      · simpa [flagParse] using ih _ h1
    | apikey v =>
      rcases hrest with h1 | h1
      · cases h1
      · simpa [flagParse] using ih _ h1
    | uid v =>
      rcases hrest with h1 | h1
      · cases h1
      · simpa [flagParse] using ih _ h1
    | overwrite v =>
      rcases hrest with h1 | h1
      · cases h1
      · simpa [flagParse] using ih _ h1
    | retries v =>
      rcases hrest with h1 | h1
      · cases h1
      · simpa [flagParse] using ih _ h1

/-- C9: a `replace` entry without the separator `<=>` makes `Set` fail, and a
command line holding such an entry ends in `flag.Parse`: the run exits with a
flag error, before `checkConfig`, with no remote call and the remote state
untouched. -/
theorem malformed_entry_rejected {σ C M X R : Type} (api : Gapi σ C M X R) (json : Codec M)
    (args : List Flag) (w : σ) (entry : GoString)
    (h : ¬ replacementSeperator <:+: entry) (hmem : Flag.replace entry ∈ args) :
    (∀ r : replacements, ∃ e, r.Set entry = .error e)
    ∧ ∃ e, main api json args w = ⟨.flagError e, w, []⟩ := by
  refine ⟨fun r => ⟨_, set_fails r entry h⟩, ?_⟩
  obtain ⟨e, he⟩ := flagParse_fails args defaultConfig entry h hmem
  exact ⟨e, by simp [main, he]⟩

/-- The entry `old-name=new-name` is refused by `Set`, and a command line
holding it after a well-formed entry exits with a flag error and no remote
call; well-formed entries are accepted and split at the first separator. -/
theorem malformed_entry_rejected_witness :
    (∃ e, (⟨[]⟩ : replacements).Set (str "old-name=new-name") = .error e)
    ∧ (∃ e, main memoryGapi jsonCodec
        [.url (str "http://grafana.example"), .apikey (str "secret"), .uid (str "dash-1"),
         .replace (str "old-name<=>new-name"), .replace (str "old-name=new-name")] oldRemote
      = ⟨.flagError e, oldRemote, []⟩)
    ∧ (⟨[]⟩ : replacements).Set (str "old-name<=>new-name")
      = .ok ⟨[⟨str "old-name", str "new-name"⟩]⟩
    ∧ (⟨[⟨str "a", str "b"⟩]⟩ : replacements).Set (str "c<=>d<=>e")
      = .ok ⟨[⟨str "a", str "b"⟩, ⟨str "c", str "d<=>e"⟩]⟩ := by
  have h := malformed_entry_rejected memoryGapi jsonCodec
    [.url (str "http://grafana.example"), .apikey (str "secret"), .uid (str "dash-1"),
     .replace (str "old-name<=>new-name"), .replace (str "old-name=new-name")] oldRemote
    (str "old-name=new-name") (by decide) (by decide)
  exact ⟨h.1 ⟨[]⟩, h.2, rfl, rfl⟩

/-! ## The whole command -/

/-- The command line of the end-to-end scenario runs to the success line: one
fetch, one write of the renamed model, one save at the remote service. -/
theorem main_end_to_end :
    main memoryGapi jsonCodec
        [.url (str "http://grafana.example"), .apikey (str "secret"), .uid (str "dash-1"),
         .replace (str "old-name<=>new-name")] oldRemote
      = ⟨.processed,
         ⟨str "dash-1",
           ⟨newModel, true,
             str "String replacement by aiven-grafana-string-replacer: old-name<=>new-name",
             ()⟩, 1⟩,
         [.DashboardByUID (str "dash-1") (.ok oldDashboard),
          .NewDashboard
            ⟨newModel, true,
              str "String replacement by aiven-grafana-string-replacer: old-name<=>new-name",
              ()⟩
            (.ok ())]⟩ := by
  rfl

/-- The entry `<=>x` is split into the empty key and the value `x`, and the
command line holding it passes `checkConfig`. -/
theorem empty_key_from_command_line :
    flagParse
        [.url (str "http://grafana.example"), .apikey (str "secret"), .uid (str "dash-1"),
         .replace (str "<=>x")] defaultConfig
      = .ok (configWith [⟨[], str "x"⟩])
    ∧ checkConfig (configWith [⟨[], str "x"⟩]) = none := by
  exact ⟨rfl, by decide⟩

end Replacer
